import Mathlib

/-!
# sshconfig: `parse` and `ParseSSHConfig` of `parser.go`

A shallow embedding of the token-stream interpreter `parse` (parser.go, lines
74-149), of the loader `ParseSSHConfig` (lines 34-53) and of the library calls
they make (`strings.Split`, `strconv.Atoi`, `fmt.Errorf`), followed by
theorems about them.

Modelling conventions.

* Go strings are Lean `String`s. The only byte-level operations involved are a
  split at the ASCII space, the scan of ASCII digits and signs and the scan
  for the percent sign, which act the same on code points as on UTF-8 bytes.
* `int` is the 64-bit Go `int`, embedded in `Int`; `strconv.Atoi` keeps its
  values inside the 64-bit range by construction.
* `parse` returns the Go pair `([]*SSHHost, error)`; a nil and an empty slice
  are both the empty list, a nil error is `none`.
* The lexer (`lex`, `nextItem`, the `item` type and its kinds) is not part of
  parser.go. The lexer object is embedded as the list of the tokens that
  successive calls of `nextItem` return.
* `ioutil.ReadFile`, `lex` and the result of `defaultConfigFile` are
  parameters of `ParseSSHConfig`.
-/

set_option autoImplicit false

namespace sshconfig

/-! ## Data model -/

/-- Token kinds (`itemType`). The eleven named constructors are the constants
that `parse` switches on; `itemIgnored` stands for every other kind the lexer
may emit (the kinds of an unrecognised directive and of its value), all of
which reach the `default:` branch of the switch. -/
inductive itemType where
  | itemError
  | itemEOF
  | itemValue
  | itemHost
  | itemHostValue
  | itemHostName
  | itemUser
  | itemPort
  | itemProxyCommand
  | itemHostKeyAlgorithms
  | itemIdentityFile
  | itemIgnored (tag : Nat)
  deriving DecidableEq, Repr

/-- A token: the fields `typ`, `pos` and `val` that `parse` reads. -/
structure item where
  typ : itemType
  pos : Int
  val : String
  deriving DecidableEq, Repr

/-- The struct `SSHHost` (parser.go, lines 14-22). -/
structure SSHHost where
  Host : List String
  HostName : String
  User : String
  Port : Int
  ProxyCommand : String
  HostKeyAlgorithms : String
  IdentityFile : String
  deriving DecidableEq, Repr

/-- The two sentinel errors of `strconv`. -/
inductive NumErr where
  | ErrRange
  | ErrSyntax
  deriving DecidableEq, Repr

/-- An operand passed to `fmt.Errorf`. -/
inductive fmtArg where
  | str (s : String)
  | int (n : Int)
  deriving DecidableEq, Repr

/-- The Go `error` values that `parse` and `ParseSSHConfig` can return: the
value built by a call `fmt.Errorf(format, a...)`, recorded with its format
string and operands, the `*strconv.NumError` returned by `strconv.Atoi`, and
the `*os.PathError` returned by `ioutil.ReadFile`. -/
inductive error where
  | Errorf (format : String) (a : List fmtArg)
  | NumError (Func : String) (Num : String) (Err : NumErr)
  | PathError (Op : String) (Path : String) (Err : String)
  deriving DecidableEq, Repr

/-! ## Library functions -/

/-- Splitting a character list at every occurrence of `sep`: the pieces between
consecutive separators, in order; the list of pieces is never empty. -/
def splitChars (sep : Char) : List Char → List (List Char)
  | [] => [[]]
  | c :: cs =>
    if c = sep then [] :: splitChars sep cs
    else
      match splitChars sep cs with
      | [] => [[c]]
      | w :: ws => (c :: w) :: ws

/-- The call `strings.Split(s, " ")` of line 96: `s` cut at every single space
character; with k spaces in `s` the result has k+1 pieces, some possibly
empty. -/
def Split (s : String) : List String :=
  (splitChars ' ' s.data).map String.mk

/-- The digit loop of `strconv.ParseUint(s, 10, 64)`: `n` is the `uint64`
accumulator; a character that is not a decimal digit is a syntax error, an
accumulator that would leave the 64-bit range is a range error. -/
def parseUintLoop : List Char → Nat → Except NumErr Nat
  | [], n => .ok n
  | c :: cs, n =>
    if '0' ≤ c ∧ c ≤ '9' then
      if n ≥ 18446744073709551615 / 10 + 1 then .error .ErrRange
      else
        let n10 := n * 10
        let n1 := (n10 + (c.toNat - '0'.toNat)) % 2 ^ 64
        if n1 < n10 ∨ n1 > 2 ^ 64 - 1 then .error .ErrRange
        else parseUintLoop cs n1
    else .error .ErrSyntax

/-- The unsigned part: `strconv.ParseUint(s, 10, 64)`; the empty string is a
syntax error. -/
def ParseUint (s : List Char) : Except NumErr Nat :=
  match s with
  | [] => .error .ErrSyntax
  | _ => parseUintLoop s 0

/-- The signed conversion `strconv.ParseInt(s, 10, 0)` on a 64-bit platform:
an optional leading sign, then `ParseUint`, then the check against the signed
range (a range error of `ParseUint` stays a range error). -/
def ParseInt (s : List Char) : Except NumErr Int :=
  match s with
  | [] => .error .ErrSyntax
  | c :: cs =>
    let neg := decide (c = '-')
    let body := if c = '+' ∨ c = '-' then cs else c :: cs
    match ParseUint body with
    | .error .ErrSyntax => .error .ErrSyntax
    | .error .ErrRange => .error .ErrRange
    | .ok un =>
      if ¬ neg ∧ un ≥ 2 ^ 63 then .error .ErrRange
      else if neg ∧ un > 2 ^ 63 then .error .ErrRange
      else .ok (if neg then - (un : Int) else (un : Int))

/-- The call `strconv.Atoi(s)` of line 114. Its result is that of
`ParseInt(s, 10, 0)` (the fast path for short strings computes the same
value), with `Func` set to "Atoi" and `Num` to the input in the error. -/
def Atoi (s : String) : Except error Int :=
  match ParseInt s.data with
  | .ok n => .ok n
  | .error e => .error (.NumError "Atoi" s e)

/-- The text that `fmt.Sprintf(format, a...)` writes, and so the message of the
error `fmt.Errorf(format, a...)`, as a list of characters, for the part of the
format language that occurs here: plain text is copied; a lone percent sign at
the end gives "%!(NOVERB)"; "%%" gives a percent sign; a verb with no operand
left gives "%!" followed by the verb and "(MISSING)"; `%s` and `%v` write a
string operand, `%d` and `%v` an integer operand in decimal. The result is
`none` for the rest of the language (flags, width, precision, argument
indexes, other verbs or operand kinds, operands left over). -/
def sprintf : List Char → List fmtArg → Option (List Char)
  | [], [] => some []
  | [], _ :: _ => none
  | c :: format, a =>
    if c ≠ '%' then (sprintf format a).map (c :: ·)
    else
      match format with
      | [] => some "%!(NOVERB)".data
      | verb :: format =>
        if verb = '%' then (sprintf format a).map ('%' :: ·)
        else if verb ∈ ['#', '0', '+', '-', ' ', '[', '*', '.'] ∨ verb.isDigit then none
        else
          match a with
          | [] => (sprintf format []).map (("%!".data ++ verb :: "(MISSING)".data) ++ ·)
          | .str s :: a =>
            if verb = 's' ∨ verb = 'v' then (sprintf format a).map (s.data ++ ·)
            else none
          | .int n :: a =>
            if verb = 'd' ∨ verb = 'v' then (sprintf format a).map ((toString n).data ++ ·)
            else none

/-- The string `fmt.Sprintf(format, a...)`, where `sprintf` models it. -/
def Sprintf (format : String) (a : List fmtArg) : Option String :=
  (sprintf format.data a).map String.mk

/-! ## The parser -/

/-- Modelled from the spec: the token that `nextItem` returns once the token
list is used up ("returns the next token, or an end-of-input sentinel once
exhausted"); `nextItem` itself is not in parser.go. -/
def eofItem : item := ⟨.itemEOF, 0, ""⟩

/-- The record opened at a `Host` token, line 94:
`&SSHHost{Host: []string{}, Port: 22}`. -/
def newHost : SSHHost :=
  { Host := [], HostName := "", User := "", Port := 22, ProxyCommand := "",
    HostKeyAlgorithms := "", IdentityFile := "" }

/-- What a run of `parse` leaves behind: the two returned values and the
tokens of the lexer that were not retrieved. -/
structure parseResult where
  configs : List SSHHost
  err : Option error
  lexer : List item
  deriving DecidableEq, Repr

/-- The error of line 85. -/
def errNoHost : error := .Errorf "config variable before Host variable" []

/-- The labelled loop of `parse` (lines 80-148). The first argument is the
lexer (the tokens still to be retrieved), the second the local `sshHost`
(`none` for nil), the third the local `sshConfigs`. A pattern `token :: rest`
is a call `lexer.nextItem()`; on the empty list the call returns `eofItem`. -/
def parseLoop : List item → Option SSHHost → List SSHHost → parseResult
  | [], none, _ => ⟨[], some errNoHost, []⟩
  | [], some sshHost, sshConfigs => ⟨sshConfigs ++ [sshHost], none, []⟩
  | token :: rest, none, sshConfigs =>
    if token.typ ≠ .itemHost then ⟨[], some errNoHost, rest⟩
    else parseLoop rest (some newHost) sshConfigs
  | token :: rest, some sshHost, sshConfigs =>
    match token.typ with
    | .itemHost => parseLoop rest (some newHost) (sshConfigs ++ [sshHost])
    | .itemHostValue =>
      parseLoop rest (some { sshHost with Host := Split token.val }) sshConfigs
    | .itemHostName =>
      match rest with
      | [] => ⟨[], some (.Errorf eofItem.val []), []⟩
      | next :: rest =>
        if next.typ ≠ .itemValue then ⟨[], some (.Errorf next.val []), rest⟩
        else parseLoop rest (some { sshHost with HostName := next.val }) sshConfigs
    | .itemUser =>
      match rest with
      | [] => ⟨[], some (.Errorf eofItem.val []), []⟩
      | next :: rest =>
        if next.typ ≠ .itemValue then ⟨[], some (.Errorf next.val []), rest⟩
        else parseLoop rest (some { sshHost with User := next.val }) sshConfigs
    | .itemPort =>
      match rest with
      | [] => ⟨[], some (.Errorf eofItem.val []), []⟩
      | next :: rest =>
        if next.typ ≠ .itemValue then ⟨[], some (.Errorf next.val []), rest⟩
        else
          match Atoi next.val with
          | .error err => ⟨[], some err, rest⟩
          | .ok port => parseLoop rest (some { sshHost with Port := port }) sshConfigs
    | .itemProxyCommand =>
      match rest with
      | [] => ⟨[], some (.Errorf eofItem.val []), []⟩
      | next :: rest =>
        if next.typ ≠ .itemValue then ⟨[], some (.Errorf next.val []), rest⟩
        else parseLoop rest (some { sshHost with ProxyCommand := next.val }) sshConfigs
    | .itemHostKeyAlgorithms =>
      match rest with
      | [] => ⟨[], some (.Errorf eofItem.val []), []⟩
      | next :: rest =>
        if next.typ ≠ .itemValue then ⟨[], some (.Errorf next.val []), rest⟩
        else
          parseLoop rest (some { sshHost with HostKeyAlgorithms := next.val }) sshConfigs
    | .itemIdentityFile =>
      match rest with
      | [] => ⟨[], some (.Errorf eofItem.val []), []⟩
      | next :: rest =>
        if next.typ ≠ .itemValue then ⟨[], some (.Errorf next.val []), rest⟩
        else parseLoop rest (some { sshHost with IdentityFile := next.val }) sshConfigs
    | .itemError =>
      ⟨[], some (.Errorf "%s at pos %d" [.str token.val, .int token.pos]), rest⟩
    | .itemEOF => ⟨sshConfigs ++ [sshHost], none, rest⟩
    | _ => parseLoop rest (some sshHost) sshConfigs

/-- The function `parse` (lines 74-149), started on the lexer that
`lex(input)` returns: `sshConfigs` is empty, `sshHost` is nil. -/
def parse (lexer : List item) : List SSHHost × Option error :=
  let r := parseLoop lexer none []
  (r.configs, r.err)

/-- The tokens of the lexer that a run of `parse` has not retrieved. -/
def unread (lexer : List item) : List item :=
  (parseLoop lexer none []).lexer

/-- The `range` loop of `ParseSSHConfig` (lines 40-50) over the paths still to
be visited, with the named result `configs` collected so far. `ReadFile` is
`ioutil.ReadFile` (the content of a path, or the error of reading it) and
`lex` is the lexer constructor, both outside parser.go. -/
def parseFiles (ReadFile : String → Except error String) (lex : String → List item) :
    List String → List SSHHost → List SSHHost × Option error
  | [], configs => (configs, none)
  | v :: path, configs =>
    match ReadFile v with
    | .error err => ([], some err)
    | .ok content =>
      match parse (lex content) with
      | (_, some err) => ([], some err)
      | (config, none) => parseFiles ReadFile lex path (configs ++ config)

/-- The function `ParseSSHConfig` (lines 34-53). `defaultConfigFile` is the
list that the function of that name returns (it reads the home directory). -/
def ParseSSHConfig (ReadFile : String → Except error String) (lex : String → List item)
    (defaultConfigFile : List String) (path : List String) :
    List SSHHost × Option error :=
  let path := if path.length ≤ 0 then defaultConfigFile else path
  parseFiles ReadFile lex path []

/-! ## Auxiliary notions for reasoning about the loop -/

/-- The six directive keywords whose value is fetched with a second call of
`nextItem` (the cases of lines 97-136). -/
def isKeyword : itemType → Bool
  | .itemHostName | .itemUser | .itemPort | .itemProxyCommand
  | .itemHostKeyAlgorithms | .itemIdentityFile => true
  | _ => false

/-- The kinds that reach the `default:` branch (lines 144-146): the generic
value kind and every kind the switch does not name. -/
def isSkipped : itemType → Bool
  | .itemValue | .itemIgnored _ => true
  | _ => false

/-- The effect of the six keyword cases on the open record, once the value
token has been accepted: the assignment of lines 102, 108, 118, 124, 130, 136
(for Port after the conversion of lines 114-117). -/
def assign (k : itemType) (v : String) (sshHost : SSHHost) : Except error SSHHost :=
  match k with
  | .itemHostName => .ok { sshHost with HostName := v }
  | .itemUser => .ok { sshHost with User := v }
  | .itemPort =>
    match Atoi v with
    | .error err => .error err
    | .ok port => .ok { sshHost with Port := port }
  | .itemProxyCommand => .ok { sshHost with ProxyCommand := v }
  | .itemHostKeyAlgorithms => .ok { sshHost with HostKeyAlgorithms := v }
  | .itemIdentityFile => .ok { sshHost with IdentityFile := v }
  | _ => .ok sshHost

/-- The two values that `parse` returns, without the lexer. -/
def parseResult.returned (r : parseResult) : List SSHHost × Option error :=
  (r.configs, r.err)

/-- The field of a record that the directive keyword of kind `k` assigns: a
string, or the integer Port. -/
def fieldOf (k : itemType) (h : SSHHost) : String ⊕ Int :=
  match k with
  | .itemHostName => .inl h.HostName
  | .itemUser => .inl h.User
  | .itemPort => .inr h.Port
  | .itemProxyCommand => .inl h.ProxyCommand
  | .itemHostKeyAlgorithms => .inl h.HostKeyAlgorithms
  | .itemIdentityFile => .inl h.IdentityFile
  | _ => .inl ""

/-! ## Definitions that follow the wording of the specification -/

/-- White space in the sense of Go's `unicode.IsSpace`, for the characters
below U+0100 and the common space separators. -/
def isSpace (c : Char) : Bool :=
  c = ' ' || c = '\t' || c = '\n' || c = '\r' || c.toNat = 11 || c.toNat = 12
    || c.toNat = 0x85 || c.toNat = 0xA0

/-- The runs of characters between consecutive white-space characters (empty
runs included). -/
def splitAtSpaces : List Char → List (List Char)
  | [] => [[]]
  | c :: cs =>
    if isSpace c then [] :: splitAtSpaces cs
    else
      match splitAtSpaces cs with
      | [] => [[c]]
      | w :: ws => (c :: w) :: ws

/-- The pattern list in the words of the specification: the maximal
white-space-free substrings of the payload, in order ("split its payload on
whitespace"); never contains the empty string. -/
def whitespaceFields (s : String) : List String :=
  ((splitAtSpaces s.data).filter (fun w => !w.isEmpty)).map String.mk

/-- The number that a list of decimal digits denotes, most significant digit
first, continuing from the value `acc` of the digits already read. -/
def decimalValue (ds : List Char) (acc : Nat) : Nat :=
  ds.foldl (fun a c => a * 10 + (c.toNat - '0'.toNat)) acc

/-- The stretch `pre` of tokens ends at a top-level position: read the way the
loop retrieves tokens (a directive keyword together with the token behind it,
any other token alone), `pre` is used up exactly, so that the token after
`pre` is not the one paired with a directive keyword. -/
def topLevel : List item → Bool
  | [] => true
  | [t] => !isKeyword t.typ
  | t :: n :: r => if isKeyword t.typ then topLevel r else topLevel (n :: r)

/-- The tokens of the block that is open at the start of `l`: those in front of
the next `Host` keyword token or end-of-input token. -/
def curBlock : List item → List item
  | [] => []
  | t :: r => if t.typ = .itemEOF ∨ t.typ = .itemHost then [] else t :: curBlock r

/-- The Host blocks of a token stream, in order: for each `Host` keyword token
in front of the first end-of-input token, the tokens between it and the next
`Host` keyword token or end-of-input token. -/
def hostBlocks : List item → List (List item)
  | [] => []
  | t :: r =>
    if t.typ = .itemEOF then []
    else if t.typ = .itemHost then curBlock r :: hostBlocks r
    else hostBlocks r

/-- The record `h2` is the one that the block `b` yields on its own, starting
from the open record `h`: `b` holds no `Host` and no end-of-input token, and
the loop run on `b` followed by an end-of-input token returns exactly `h2`. -/
def blockRecord (h : SSHHost) (b : List item) (h2 : SSHHost) : Prop :=
  (∀ t ∈ b, t.typ ≠ .itemHost ∧ t.typ ≠ .itemEOF)
    ∧ ∀ e : item, e.typ = .itemEOF → parseLoop (b ++ [e]) (some h) [] = ⟨[h2], none, []⟩

/-- The record `r` has every field for which the block `b` holds no keyword
token at its default: Port 22, the five strings empty. -/
def defaultsKept (b : List item) (r : SSHHost) : Prop :=
  ((∀ t ∈ b, t.typ ≠ .itemPort) → r.Port = 22)
    ∧ ((∀ t ∈ b, t.typ ≠ .itemHostName) → r.HostName = "")
    ∧ ((∀ t ∈ b, t.typ ≠ .itemUser) → r.User = "")
    ∧ ((∀ t ∈ b, t.typ ≠ .itemProxyCommand) → r.ProxyCommand = "")
    ∧ ((∀ t ∈ b, t.typ ≠ .itemHostKeyAlgorithms) → r.HostKeyAlgorithms = "")
    ∧ ((∀ t ∈ b, t.typ ≠ .itemIdentityFile) → r.IdentityFile = "")

/-- The record `r` holds, for every directive keyword of the block `b`, the
value of its last occurrence: whenever `kw` followed by `v` occurs in `b` with
no token of the kind of `kw` behind it, the field of `kw` is the payload of
`v` (for Port, the integer that `strconv.Atoi` makes of it). -/
def lastWins (b : List item) (r : SSHHost) : Prop :=
  ∀ (pre : List item) (kw v : item) (post : List item),
    b = pre ++ kw :: v :: post → (∀ t ∈ post, t.typ ≠ kw.typ) →
      (kw.typ = .itemHostName → r.HostName = v.val)
        ∧ (kw.typ = .itemUser → r.User = v.val)
        ∧ (kw.typ = .itemPort → Atoi v.val = .ok r.Port)
        ∧ (kw.typ = .itemProxyCommand → r.ProxyCommand = v.val)
        ∧ (kw.typ = .itemHostKeyAlgorithms → r.HostKeyAlgorithms = v.val)
        ∧ (kw.typ = .itemIdentityFile → r.IdentityFile = v.val)

/-- The pairing rule of the lexer for `Host`: every `Host` keyword token of the
stream is immediately followed by a HostPatterns value token. -/
def hostPaired : List item → Bool
  | [] => true
  | [t] => t.typ ≠ .itemHost
  | t :: n :: r =>
    (t.typ ≠ .itemHost || n.typ = .itemHostValue) && hostPaired (n :: r)

/-- The token stops the run wherever it is retrieved: end-of-input or error. -/
def isStop (t : item) : Bool :=
  t.typ = .itemEOF || t.typ = .itemError

/-- The error of handling the file at path `v` in an iteration of the loop of
`ParseSSHConfig`: the error of reading it (line 42), else the error of parsing
its content (line 46), `none` when both succeed. -/
def fileError (ReadFile : String → Except error String) (lex : String → List item)
    (v : String) : Option error :=
  match ReadFile v with
  | .error err => some err
  | .ok content => (parse (lex content)).2

/-- The record list that `parse` returns for the content of the file at path
`v` (empty when the file cannot be read). -/
def fileRecords (ReadFile : String → Except error String) (lex : String → List item)
    (v : String) : List SSHHost :=
  match ReadFile v with
  | .error _ => []
  | .ok content => (parse (lex content)).1

/-- The token stream of consecutive Host blocks without further directives:
each pair is a `Host` keyword token and its HostPatterns value token. -/
def pairsStream : List (item × item) → List item
  | [] => []
  | x :: xs => x.1 :: x.2 :: pairsStream xs

/-! ## Auxiliary lemmas: the split -/

/-- A split has at least one piece. -/
theorem splitChars_ne_nil (sep : Char) (cs : List Char) : splitChars sep cs ≠ [] := by
  cases cs with
  | nil => simp [splitChars]
  | cons c cs =>
    unfold splitChars
    split
    · simp
    · split <;> simp

/-- Joining the pieces with the separator gives back the input. -/
theorem splitChars_intercalate (sep : Char) (cs : List Char) :
    List.intercalate [sep] (splitChars sep cs) = cs := by
  induction cs with
  | nil => simp [splitChars, List.intercalate]
  | cons c cs ih =>
    unfold splitChars
    by_cases hc : c = sep
    · simp only [hc, if_true]
      cases hs : splitChars sep cs with
      | nil => exact absurd hs (splitChars_ne_nil sep cs)
      | cons w ws =>
        rw [hs] at ih
        simp [List.intercalate] at ih ⊢
        exact ih
    · simp only [hc, if_false]
      cases hs : splitChars sep cs with
      | nil => exact absurd hs (splitChars_ne_nil sep cs)
      | cons w ws =>
        rw [hs] at ih
        cases ws with
        | nil => simp [List.intercalate] at ih ⊢; exact ih
        | cons w2 ws => simp [List.intercalate] at ih ⊢; exact ih

/-- No piece contains the separator. -/
theorem splitChars_no_sep (sep : Char) (cs : List Char) :
    ∀ w ∈ splitChars sep cs, sep ∉ w := by
  induction cs with
  | nil => simp [splitChars]
  | cons c cs ih =>
    unfold splitChars
    by_cases hc : c = sep
    · simp only [hc, if_true]
      intro w hw
      simp at hw
      rcases hw with rfl | hw
      · simp
      · exact ih w hw
    · simp only [hc, if_false]
      cases hs : splitChars sep cs with
      | nil => exact absurd hs (splitChars_ne_nil sep cs)
      | cons w ws =>
        rw [hs] at ih
        intro x hx
        simp at hx
        rcases hx with rfl | hx
        · have := ih w (by simp)
          simp [this, Ne.symm hc]
        · exact ih x (by simp [hx])

/-- There is one piece more than there are separators. -/
theorem splitChars_length (sep : Char) (cs : List Char) :
    (splitChars sep cs).length = cs.count sep + 1 := by
  induction cs with
  | nil => simp [splitChars]
  | cons c cs ih =>
    unfold splitChars
    by_cases hc : c = sep
    · simp [hc, ih]
    · simp only [hc, if_false]
      cases hs : splitChars sep cs with
      | nil => exact absurd hs (splitChars_ne_nil sep cs)
      | cons w ws =>
        rw [hs] at ih
        simp at ih ⊢
        rw [List.count_cons_of_ne (Ne.symm hc)]
        omega

/-- The pieces of `Split`, as character lists. -/
theorem Split_data (s : String) : (Split s).map String.data = splitChars ' ' s.data := by
  simp [Split, List.map_map, Function.comp_def]

/-! ## Auxiliary lemmas: the conversion of the Port value -/

/-- The accumulator never exceeds the final value. -/
theorem decimalValue_ge (ds : List Char) : ∀ acc, acc ≤ decimalValue ds acc := by
  induction ds with
  | nil => intro acc; simp [decimalValue]
  | cons c cs ih =>
    intro acc
    have h := ih (acc * 10 + (c.toNat - '0'.toNat))
    simp only [decimalValue, List.foldl_cons] at h ⊢
    omega

/-- On a list of decimal digits whose value fits 64 bits the digit loop
returns that value. -/
theorem parseUintLoop_digits (ds : List Char) :
    ∀ acc, (∀ c ∈ ds, '0' ≤ c ∧ c ≤ '9') → decimalValue ds acc < 2 ^ 64 →
      parseUintLoop ds acc = .ok (decimalValue ds acc) := by
  induction ds with
  | nil => intro acc _ _; rfl
  | cons c cs ih =>
    intro acc hd hlt
    have hc := hd c (List.mem_cons_self _ _)
    have hge := decimalValue_ge cs (acc * 10 + (c.toNat - '0'.toNat))
    have hlt2 : decimalValue cs (acc * 10 + (c.toNat - '0'.toNat)) < 2 ^ 64 := by
      simpa [decimalValue] using hlt
    have hsmall : acc * 10 + (c.toNat - '0'.toNat) < 2 ^ 64 := lt_of_le_of_lt hge hlt2
    have hmod : (acc * 10 + (c.toNat - '0'.toNat)) % 2 ^ 64
        = acc * 10 + (c.toNat - '0'.toNat) := Nat.mod_eq_of_lt hsmall
    have h1 : ¬ (acc ≥ 18446744073709551615 / 10 + 1) := by
      norm_num at hsmall ⊢
      omega
    have h2 : ¬ (acc * 10 + (c.toNat - '0'.toNat) < acc * 10
        ∨ acc * 10 + (c.toNat - '0'.toNat) > 2 ^ 64 - 1) := by
      omega
    unfold parseUintLoop
    simp only [hc, and_self, if_true, h1, if_false, hmod, h2]
    have := ih _ (fun x hx => hd x (List.mem_cons_of_mem _ hx)) hlt2
    simpa [decimalValue] using this

/-- A decimal digit is not a sign character. -/
theorem digit_ne_sign (c : Char) (hc : '0' ≤ c ∧ c ≤ '9') : c ≠ '+' ∧ c ≠ '-' := by
  constructor
  · rintro rfl
    exact absurd hc.1 (by decide)
  · rintro rfl
    exact absurd hc.1 (by decide)

/-- The conversion of a non-empty string of decimal digits whose value is below
2^63 succeeds with that value. -/
theorem Atoi_digits (ds : List Char) (hne : ds ≠ []) (hd : ∀ c ∈ ds, '0' ≤ c ∧ c ≤ '9')
    (hlt : decimalValue ds 0 < 2 ^ 63) :
    Atoi (String.mk ds) = .ok (decimalValue ds 0 : Nat) := by
  cases ds with
  | nil => exact absurd rfl hne
  | cons c cs =>
    obtain ⟨hp, hm⟩ := digit_ne_sign c (hd c (List.mem_cons_self _ _))
    have hu : ParseUint (c :: cs) = .ok (decimalValue (c :: cs) 0) := by
      simp only [ParseUint]
      exact parseUintLoop_digits _ 0 hd (lt_trans hlt (by norm_num))
    simp only [Atoi, ParseInt, hp, hm, or_self, if_false, hu, decide_False]
    have h3 : ¬ (9223372036854775808 ≤ decimalValue (c :: cs) 0) := by
      norm_num at hlt; omega
    simp [h3]
/-- The conversion of a string whose first character is neither a sign nor a
decimal digit fails with a syntax error. -/
theorem Atoi_not_number (c : Char) (cs : List Char) (hc : ¬ ('0' ≤ c ∧ c ≤ '9'))
    (hp : c ≠ '+') (hm : c ≠ '-') :
    Atoi (String.mk (c :: cs)) = .error (.NumError "Atoi" (String.mk (c :: cs)) .ErrSyntax) := by
  simp [Atoi, ParseInt, hp, hm, ParseUint, parseUintLoop, hc]

/-! ## Auxiliary lemmas: one iteration of the loop -/

/-- Every kind falls in one of the six groups the loop tells apart. -/
theorem itemType_cases (k : itemType) :
    k = .itemHost ∨ k = .itemHostValue ∨ k = .itemError ∨ k = .itemEOF
      ∨ isKeyword k = true ∨ isSkipped k = true := by
  cases k <;> simp [isKeyword, isSkipped]

/-- A `Host` token inside an open block: lines 89-94. -/
theorem parseLoop_host (t : item) (r : List item) (h : SSHHost) (c : List SSHHost)
    (ht : t.typ = .itemHost) :
    parseLoop (t :: r) (some h) c = parseLoop r (some newHost) (c ++ [h]) := by
  cases t; cases ht; rfl

/-- A HostPatterns token inside an open block: lines 95-96. -/
theorem parseLoop_hostValue (t : item) (r : List item) (h : SSHHost) (c : List SSHHost)
    (ht : t.typ = .itemHostValue) :
    parseLoop (t :: r) (some h) c
      = parseLoop r (some { h with Host := Split t.val }) c := by
  cases t; cases ht; rfl

/-- An error token inside an open block: lines 137-138. -/
theorem parseLoop_error (t : item) (r : List item) (h : SSHHost) (c : List SSHHost)
    (ht : t.typ = .itemError) :
    parseLoop (t :: r) (some h) c
      = ⟨[], some (.Errorf "%s at pos %d" [.str t.val, .int t.pos]), r⟩ := by
  cases t; cases ht; rfl

/-- An end-of-input token inside an open block: lines 139-143. -/
theorem parseLoop_eof (t : item) (r : List item) (h : SSHHost) (c : List SSHHost)
    (ht : t.typ = .itemEOF) :
    parseLoop (t :: r) (some h) c = ⟨c ++ [h], none, r⟩ := by
  cases t; cases ht; rfl

/-- A token of the `default:` branch inside an open block: lines 144-146. -/
theorem parseLoop_skipped (t : item) (r : List item) (h : SSHHost) (c : List SSHHost)
    (ht : isSkipped t.typ = true) :
    parseLoop (t :: r) (some h) c = parseLoop r (some h) c := by
  cases t with
  | mk typ pos val =>
    cases typ <;> simp [isSkipped] at ht <;> simp [parseLoop]

/-- A directive keyword at the very end of the token list: the value token is
the sentinel, which is not a generic value. -/
theorem parseLoop_keyword_last (t : item) (h : SSHHost) (c : List SSHHost)
    (ht : isKeyword t.typ = true) :
    parseLoop [t] (some h) c = ⟨[], some (.Errorf "" []), []⟩ := by
  cases t with
  | mk typ pos val =>
    cases typ <;> simp [isKeyword] at ht <;> simp [parseLoop, eofItem]

/-- A directive keyword and the token behind it: the six cases of lines 97-136
in one statement. -/
theorem parseLoop_keyword (t n : item) (r : List item) (h : SSHHost) (c : List SSHHost)
    (ht : isKeyword t.typ = true) :
    parseLoop (t :: n :: r) (some h) c =
      if n.typ ≠ .itemValue then ⟨[], some (.Errorf n.val []), r⟩
      else
        match assign t.typ n.val h with
        | .error err => ⟨[], some err, r⟩
        | .ok h2 => parseLoop r (some h2) c := by
  cases t with
  | mk typ pos val =>
    cases typ <;> simp [isKeyword] at ht <;> simp only [parseLoop, assign]
    all_goals split
    all_goals try rfl
    split <;> simp_all

/-- A token that is not a directive keyword either ends the run with a result
that does not depend on the tokens behind it, or moves to a new state that
does not depend on them. -/
theorem parseLoop_single_step (t : item) (h : SSHHost) (c : List SSHHost)
    (hk : isKeyword t.typ = false) :
    (∃ res, ∀ r2, (parseLoop (t :: r2) (some h) c).returned = res)
      ∨ ∃ h2 c2, ∀ r2, parseLoop (t :: r2) (some h) c = parseLoop r2 (some h2) c2 := by
  rcases itemType_cases t.typ with ht | ht | ht | ht | ht | ht
  · exact Or.inr ⟨_, _, fun r2 => parseLoop_host t r2 h c ht⟩
  · exact Or.inr ⟨_, _, fun r2 => parseLoop_hostValue t r2 h c ht⟩
  · exact Or.inl ⟨([], some (.Errorf "%s at pos %d" [.str t.val, .int t.pos])),
      fun r2 => by rw [parseLoop_error t r2 h c ht]; rfl⟩
  · exact Or.inl ⟨(c ++ [h], none), fun r2 => by rw [parseLoop_eof t r2 h c ht]; rfl⟩
  · rw [hk] at ht; cases ht
  · exact Or.inr ⟨_, _, fun r2 => parseLoop_skipped t r2 h c ht⟩

/-- Two skipped tokens inserted at a top-level position of an open block do not
change what the loop returns. -/
theorem returned_insert_skipped (a b : item) (post : List item)
    (ha : isSkipped a.typ = true) (hb : isSkipped b.typ = true) (pre : List item) :
    ∀ (h : SSHHost) (c : List SSHHost), topLevel pre = true →
      (parseLoop (pre ++ a :: b :: post) (some h) c).returned
        = (parseLoop (pre ++ post) (some h) c).returned := by
  induction pre using topLevel.induct with
  | case1 =>
    intro h c _
    simp only [List.nil_append]
    rw [parseLoop_skipped a _ h c ha, parseLoop_skipped b _ h c hb]
  | case2 t =>
    intro h c ht
    simp [topLevel] at ht
    rcases parseLoop_single_step t h c ht with ⟨res, hres⟩ | ⟨h2, c2, hstep⟩
    · simp only [List.cons_append, List.nil_append]
      rw [hres, hres]
    · simp only [List.cons_append, List.nil_append]
      rw [hstep, hstep, parseLoop_skipped a _ h2 c2 ha, parseLoop_skipped b _ h2 c2 hb]
  | case3 t n r hk ih =>
    intro h c ht
    simp [topLevel, hk] at ht
    simp only [List.cons_append]
    rw [parseLoop_keyword t n _ h c hk, parseLoop_keyword t n _ h c hk]
    by_cases hn : n.typ = .itemValue
    · simp only [hn, ne_eq, not_true_eq_false, if_false]
      cases hx : assign t.typ n.val h with
      | error e => rfl
      | ok h2 => exact ih h2 c ht
    · simp only [hn, ne_eq, not_false_eq_true, if_true]
      rfl
  | case4 t n r hk ih =>
    intro h c ht
    simp [topLevel, hk] at ht
    have hk2 : isKeyword t.typ = false := by simpa using hk
    rcases parseLoop_single_step t h c hk2 with ⟨res, hres⟩ | ⟨h2, c2, hstep⟩
    · simp only [List.cons_append]
      rw [hres, hres]
    · simp only [List.cons_append]
      rw [hstep, hstep]
      have := ih h2 c2 ht
      simpa using this


/-! ## Auxiliary lemmas: successful runs and Host blocks -/

/-- A directive keyword kind is none of the other kinds. -/
theorem isKeyword_ne {k : itemType} (hk : isKeyword k = true) :
    k ≠ .itemHost ∧ k ≠ .itemHostValue ∧ k ≠ .itemError ∧ k ≠ .itemEOF
      ∧ k ≠ .itemValue ∧ isSkipped k = false := by
  cases k <;> simp [isKeyword, isSkipped] at hk ⊢

/-- A skipped kind is none of the other kinds. -/
theorem isSkipped_ne {k : itemType} (hk : isSkipped k = true) :
    k ≠ .itemHost ∧ k ≠ .itemHostValue ∧ k ≠ .itemError ∧ k ≠ .itemEOF
      ∧ isKeyword k = false := by
  cases k <;> simp [isKeyword, isSkipped] at hk ⊢

/-- The first iteration of a successful run from an open block. -/
theorem parseLoop_ok_step (t : item) (r : List item) (h : SSHHost) (c rs : List SSHHost)
    (rem : List item) (hok : parseLoop (t :: r) (some h) c = ⟨rs, none, rem⟩) :
    (t.typ = .itemEOF ∧ rs = c ++ [h] ∧ rem = r)
      ∨ (t.typ = .itemHost ∧ parseLoop r (some newHost) (c ++ [h]) = ⟨rs, none, rem⟩)
      ∨ (t.typ = .itemHostValue
          ∧ parseLoop r (some { h with Host := Split t.val }) c = ⟨rs, none, rem⟩)
      ∨ (isSkipped t.typ = true ∧ parseLoop r (some h) c = ⟨rs, none, rem⟩)
      ∨ (isKeyword t.typ = true ∧ ∃ n r2 h2, r = n :: r2 ∧ n.typ = .itemValue
          ∧ assign t.typ n.val h = .ok h2 ∧ parseLoop r2 (some h2) c = ⟨rs, none, rem⟩) := by
  rcases itemType_cases t.typ with ht | ht | ht | ht | ht | ht
  · rw [parseLoop_host t r h c ht] at hok; exact Or.inr (Or.inl ⟨ht, hok⟩)
  · rw [parseLoop_hostValue t r h c ht] at hok; exact Or.inr (Or.inr (Or.inl ⟨ht, hok⟩))
  · rw [parseLoop_error t r h c ht] at hok; simp at hok
  · rw [parseLoop_eof t r h c ht] at hok
    simp at hok
    exact Or.inl ⟨ht, hok.1.symm, hok.2.symm⟩
  · refine Or.inr (Or.inr (Or.inr (Or.inr ⟨ht, ?_⟩)))
    cases r with
    | nil => rw [parseLoop_keyword_last t h c ht] at hok; simp at hok
    | cons n r2 =>
      rw [parseLoop_keyword t n r2 h c ht] at hok
      by_cases hn : n.typ = .itemValue
      · simp only [hn, ne_eq, not_true_eq_false, if_false] at hok
        cases hx : assign t.typ n.val h with
        | error e => rw [hx] at hok; simp at hok
        | ok h2 => rw [hx] at hok; exact ⟨n, r2, h2, rfl, hn, hx, hok⟩
      · simp [hn] at hok
  · rw [parseLoop_skipped t r h c ht] at hok
    exact Or.inr (Or.inr (Or.inr (Or.inl ⟨ht, hok⟩)))

/-- A successful run from an open block returns the records collected before,
then the record of the open block, then one record per later Host block. -/
theorem parseLoop_blocks : ∀ (n : Nat) (l : List item), l.length ≤ n →
    ∀ (h : SSHHost) (c rs : List SSHHost) (rem : List item),
      parseLoop l (some h) c = ⟨rs, none, rem⟩ →
      ∃ h2 rs2, rs = c ++ h2 :: rs2 ∧ blockRecord h (curBlock l) h2
        ∧ List.Forall₂ (blockRecord newHost) (hostBlocks l) rs2 := by
  intro n
  induction n with
  | zero =>
    intro l hl h c rs rem hok
    have hl0 : l = [] := List.length_eq_zero.mp (Nat.le_zero.mp hl)
    subst hl0
    simp [parseLoop] at hok
    exact ⟨h, [], hok.1.symm, ⟨by simp [curBlock], fun e he => parseLoop_eof e [] h [] he⟩,
      by simp [hostBlocks]⟩
  | succ n ih =>
    intro l hl h c rs rem hok
    cases l with
    | nil =>
      simp [parseLoop] at hok
      exact ⟨h, [], hok.1.symm, ⟨by simp [curBlock], fun e he => parseLoop_eof e [] h [] he⟩,
      by simp [hostBlocks]⟩
    | cons t r =>
      have hr : r.length ≤ n := by simpa using hl
      rcases parseLoop_ok_step t r h c rs rem hok with
        ⟨ht, hrs, _⟩ | ⟨ht, hok2⟩ | ⟨ht, hok2⟩ | ⟨ht, hok2⟩ | ⟨ht, n1, r2, h2, hrn, hn, ha, hok2⟩
      · exact ⟨h, [], hrs, ⟨by simp [curBlock, ht],
          fun e he => by simpa [curBlock, ht] using parseLoop_eof e [] h [] he⟩,
          by simp [hostBlocks, ht]⟩
      · obtain ⟨h3, rs3, hrs, hb, hf⟩ := ih r hr newHost (c ++ [h]) rs rem hok2
        refine ⟨h, h3 :: rs3, by simpa using hrs, ⟨by simp [curBlock, ht], ?_⟩, ?_⟩
        · intro e he
          simpa [curBlock, ht] using parseLoop_eof e [] h [] he
        · simp only [hostBlocks, ht, if_true]
          exact List.Forall₂.cons hb hf
      · obtain ⟨h3, rs3, hrs, hb, hf⟩ := ih r hr _ c rs rem hok2
        refine ⟨h3, rs3, hrs, ⟨?_, ?_⟩, ?_⟩
        · intro x hx
          simp [curBlock, ht] at hx
          rcases hx with rfl | hx
          · simp [ht]
          · exact hb.1 x hx
        · intro e he
          simp only [curBlock, ht]
          simp only [reduceCtorEq, or_self, if_false, List.cons_append]
          rw [parseLoop_hostValue t _ h [] ht]
          exact hb.2 e he
        · simpa [hostBlocks, ht] using hf
      · obtain ⟨h3, rs3, hrs, hb, hf⟩ := ih r hr _ c rs rem hok2
        obtain ⟨e1, _, _, e2, _⟩ := isSkipped_ne ht
        refine ⟨h3, rs3, hrs, ⟨?_, ?_⟩, ?_⟩
        · intro x hx
          simp [curBlock, e1, e2] at hx
          rcases hx with rfl | hx
          · simp [e1, e2]
          · exact hb.1 x hx
        · intro e he
          simp only [curBlock, e1, e2, or_self, if_false, List.cons_append]
          rw [parseLoop_skipped t _ h [] ht]
          exact hb.2 e he
        · simpa [hostBlocks, e1, e2] using hf
      · subst hrn
        have hr2 : r2.length ≤ n := by simp at hr; omega
        obtain ⟨h3, rs3, hrs, hb, hf⟩ := ih r2 hr2 _ c rs rem hok2
        obtain ⟨e1, _, _, e2, _, _⟩ := isKeyword_ne ht
        refine ⟨h3, rs3, hrs, ⟨?_, ?_⟩, ?_⟩
        · intro x hx
          simp [curBlock, e1, e2, hn] at hx
          rcases hx with rfl | rfl | hx
          · simp [e1, e2]
          · simp [hn]
          · exact hb.1 x hx
        · intro e he
          simp only [curBlock, e1, e2, hn, reduceCtorEq, or_self, if_false, List.cons_append]
          rw [parseLoop_keyword t n1 _ h [] ht]
          simp only [hn, ne_eq, not_true_eq_false, if_false, ha]
          exact hb.2 e he
        · simpa [hostBlocks, e1, e2, hn] using hf

/-- A successful parse returns one record per Host block, in order, each the
record its block yields on its own. -/
theorem parse_ok_blocks (toks : List item) (rs : List SSHHost)
    (hok : parse toks = (rs, none)) :
    List.Forall₂ (blockRecord newHost) (hostBlocks toks) rs := by
  cases toks with
  | nil => simp [parse, parseLoop] at hok
  | cons t r =>
    by_cases ht : t.typ = .itemHost
    · simp only [parse, parseLoop, ht, ne_eq, not_true_eq_false, if_false] at hok
      have hok2 : parseLoop r (some newHost) [] = ⟨rs, none, (parseLoop r (some newHost) []).lexer⟩ := by
        cases hp : parseLoop r (some newHost) [] with
        | mk a b c => rw [hp] at hok; simp at hok; simp [hok]
      obtain ⟨h3, rs3, hrs, hb, hf⟩ := parseLoop_blocks r.length r (le_refl _) _ _ _ _ hok2
      simp only [hostBlocks, ht, if_true]
      simp at hrs
      rw [hrs]
      exact List.Forall₂.cons hb hf
    · simp [parse, parseLoop, ht] at hok


/-- An assignment leaves the fields of the other keywords alone. -/
theorem assign_other (k k2 : itemType) (v : String) (h h2 : SSHHost)
    (ha : assign k v h = .ok h2) (hk : k2 ≠ k) : fieldOf k2 h2 = fieldOf k2 h := by
  cases k <;> simp only [assign] at ha
  case itemPort =>
    split at ha
    · cases ha
    · cases ha
      cases k2 <;> first | rfl | exact absurd rfl hk
  all_goals
    cases ha
    cases k2 <;> first | rfl | exact absurd rfl hk

/-- An assignment stores the value in the field of its keyword. -/
theorem assign_same (k : itemType) (v : String) (h h2 : SSHHost)
    (ha : assign k v h = .ok h2) (hk : isKeyword k = true) :
    (k ≠ .itemPort ∧ fieldOf k h2 = .inl v)
      ∨ (k = .itemPort ∧ Atoi v = .ok h2.Port) := by
  cases k <;> simp [isKeyword] at hk <;> simp only [assign] at ha
  case itemPort =>
    right
    split at ha
    · cases ha
    · rename_i p hp
      cases ha
      exact ⟨rfl, hp⟩
  all_goals
    cases ha
    left
    exact ⟨by simp, rfl⟩

/-- Setting the patterns changes no keyword field. -/
theorem fieldOf_setHost (k : itemType) (h : SSHHost) (ps : List String) :
    fieldOf k { h with Host := ps } = fieldOf k h := by
  cases k <;> rfl

/-- A successful run over tokens without a `Host` token returns one more
record, which agrees with the open record on every field whose keyword kind
does not occur among the tokens. -/
theorem parseLoop_keeps : ∀ (n : Nat) (l : List item), l.length ≤ n →
    ∀ (h : SSHHost) (c rs : List SSHHost) (rem : List item),
      parseLoop l (some h) c = ⟨rs, none, rem⟩ → (∀ t ∈ l, t.typ ≠ .itemHost) →
      ∃ h2, rs = c ++ [h2] ∧ ∀ k, (∀ t ∈ l, t.typ ≠ k) → fieldOf k h2 = fieldOf k h := by
  intro n
  induction n with
  | zero =>
    intro l hl h c rs rem hok _
    have hl0 : l = [] := List.length_eq_zero.mp (Nat.le_zero.mp hl)
    subst hl0
    simp [parseLoop] at hok
    exact ⟨h, hok.1.symm, fun _ _ => rfl⟩
  | succ n ih =>
    intro l hl h c rs rem hok hno
    cases l with
    | nil =>
      simp [parseLoop] at hok
      exact ⟨h, hok.1.symm, fun _ _ => rfl⟩
    | cons t r =>
      have hr : r.length ≤ n := by simpa using hl
      have hnor : ∀ x ∈ r, x.typ ≠ .itemHost := fun x hx => hno x (List.mem_cons_of_mem _ hx)
      rcases parseLoop_ok_step t r h c rs rem hok with
        ⟨_, hrs, _⟩ | ⟨ht, _⟩ | ⟨_, hok2⟩ | ⟨_, hok2⟩ | ⟨_, n1, r2, h2, hrn, _, ha, hok2⟩
      · exact ⟨h, hrs, fun _ _ => rfl⟩
      · exact absurd ht (hno t (List.mem_cons_self _ _))
      · obtain ⟨h3, hrs, hf⟩ := ih r hr _ c rs rem hok2 hnor
        refine ⟨h3, hrs, fun k hk => ?_⟩
        rw [hf k (fun x hx => hk x (List.mem_cons_of_mem _ hx)), fieldOf_setHost]
      · obtain ⟨h3, hrs, hf⟩ := ih r hr _ c rs rem hok2 hnor
        exact ⟨h3, hrs, fun k hk => hf k (fun x hx => hk x (List.mem_cons_of_mem _ hx))⟩
      · subst hrn
        have hr2 : r2.length ≤ n := by simp at hr; omega
        obtain ⟨h3, hrs, hf⟩ := ih r2 hr2 _ c rs rem hok2
          (fun x hx => hnor x (List.mem_cons_of_mem _ hx))
        refine ⟨h3, hrs, fun k hk => ?_⟩
        rw [hf k (fun x hx => hk x (List.mem_cons_of_mem _ (List.mem_cons_of_mem _ hx)))]
        exact assign_other t.typ k n1.val h h2 ha (Ne.symm (hk t (List.mem_cons_self _ _)))

/-- In a successful run a directive keyword token behind a stretch without
end-of-input token is retrieved at the top of the loop. -/
theorem parseLoop_reach (kw : item) (tail : List item) (hkw : isKeyword kw.typ = true) :
    ∀ (n : Nat) (pre : List item), pre.length ≤ n →
    ∀ (h : SSHHost) (c rs : List SSHHost) (rem : List item),
      parseLoop (pre ++ kw :: tail) (some h) c = ⟨rs, none, rem⟩ →
      (∀ t ∈ pre, t.typ ≠ .itemEOF) →
      ∃ h1 c1, parseLoop (kw :: tail) (some h1) c1 = ⟨rs, none, rem⟩ := by
  intro n
  induction n with
  | zero =>
    intro pre hl h c rs rem hok _
    have hl0 : pre = [] := List.length_eq_zero.mp (Nat.le_zero.mp hl)
    subst hl0
    exact ⟨h, c, hok⟩
  | succ n ih =>
    intro pre hl h c rs rem hok hno
    cases pre with
    | nil => exact ⟨h, c, hok⟩
    | cons t r =>
      have hr : r.length ≤ n := by simpa using hl
      have hnor : ∀ x ∈ r, x.typ ≠ .itemEOF := fun x hx => hno x (List.mem_cons_of_mem _ hx)
      rw [List.cons_append] at hok
      rcases parseLoop_ok_step t _ h c rs rem hok with
        ⟨ht, _, _⟩ | ⟨_, hok2⟩ | ⟨_, hok2⟩ | ⟨_, hok2⟩ | ⟨_, n1, r2, h2, hrn, hn, _, hok2⟩
      · exact absurd ht (hno t (List.mem_cons_self _ _))
      · exact ih r hr _ _ rs rem hok2 hnor
      · exact ih r hr _ _ rs rem hok2 hnor
      · exact ih r hr _ _ rs rem hok2 hnor
      · cases r with
        | nil =>
          simp at hrn
          obtain ⟨rfl, _⟩ := hrn
          exact absurd hn (isKeyword_ne hkw).2.2.2.2.1
        | cons x r3 =>
          simp at hrn
          obtain ⟨rfl, rfl⟩ := hrn
          have hr3 : r3.length ≤ n := by simp at hr; omega
          exact ih r3 hr3 _ _ rs rem hok2 (fun y hy => hnor y (List.mem_cons_of_mem _ hy))

/-- The record of a block holds the value behind the last occurrence of a
keyword. -/
theorem blockRecord_last (h0 r : SSHHost) (pre post : List item) (kw v : item)
    (hb : blockRecord h0 (pre ++ kw :: v :: post) r) (hkw : isKeyword kw.typ = true)
    (hpost : ∀ t ∈ post, t.typ ≠ kw.typ) :
    (kw.typ ≠ .itemPort ∧ fieldOf kw.typ r = .inl v.val)
      ∨ (kw.typ = .itemPort ∧ Atoi v.val = .ok r.Port) := by
  obtain ⟨hmem, hrun⟩ := hb
  have hrun2 := hrun eofItem rfl
  rw [List.append_assoc] at hrun2
  obtain ⟨h1, c1, hok⟩ := parseLoop_reach kw ((v :: post) ++ [eofItem]) hkw pre.length pre
    (le_refl _) h0 [] [r] [] hrun2 (fun t ht => (hmem t (by simp [ht])).2)
  obtain ⟨e1, e2, e3, e4, e5, e6⟩ := isKeyword_ne hkw
  rw [List.cons_append] at hok
  rcases parseLoop_ok_step kw _ h1 c1 [r] [] hok with
    ⟨ht, _, _⟩ | ⟨ht, _⟩ | ⟨ht, _⟩ | ⟨ht, _⟩ | ⟨_, n1, r2, h2, hrn, hn, ha, hok2⟩
  · exact absurd ht e4
  · exact absurd ht e1
  · exact absurd ht e2
  · rw [e6] at ht; cases ht
  · simp at hrn
    obtain ⟨rfl, rfl⟩ := hrn
    have hnoHost : ∀ t ∈ post ++ [eofItem], t.typ ≠ .itemHost := by
      intro t ht
      simp at ht
      rcases ht with ht | rfl
      · exact (hmem t (by simp [ht])).1
      · simp [eofItem]
    obtain ⟨h3, hrs, hf⟩ := parseLoop_keeps _ _ (le_refl _) h2 c1 [r] [] hok2 hnoHost
    have hk : ∀ t ∈ post ++ [eofItem], t.typ ≠ kw.typ := by
      intro t ht
      simp at ht
      rcases ht with ht | rfl
      · exact hpost t ht
      · exact fun h => e4 h.symm
    have hfk := hf kw.typ hk
    have hr3 : r = h3 := by
      cases c1 with
      | nil => simpa using hrs
      | cons x xs =>
        have hlen := congrArg List.length hrs
        simp at hlen
    subst hr3
    rcases assign_same kw.typ v.val h1 h2 ha hkw with ⟨hne, hv⟩ | ⟨hp, hv⟩
    · left; exact ⟨hne, by rw [hfk, hv]⟩
    · right
      refine ⟨hp, ?_⟩
      rw [hp] at hfk
      simp [fieldOf] at hfk
      rw [hfk]; exact hv


/-! ## Auxiliary lemmas: blocks and records -/

/-- The record a block yields from the fresh record keeps the defaults of the
fields the block does not name. -/
theorem blockRecord_defaults (b : List item) (r : SSHHost)
    (hb : blockRecord newHost b r) : defaultsKept b r := by
  obtain ⟨hmem, hrun⟩ := hb
  have hnoHost : ∀ t ∈ b ++ [eofItem], t.typ ≠ .itemHost := by
    intro t ht
    simp at ht
    rcases ht with ht | rfl
    · exact (hmem t ht).1
    · simp [eofItem]
  obtain ⟨h3, hrs, hf⟩ := parseLoop_keeps _ _ (le_refl _) newHost [] [r] [] (hrun eofItem rfl)
    hnoHost
  have hr3 : r = h3 := by simpa using hrs
  subst hr3
  have key : ∀ k, isKeyword k = true → (∀ t ∈ b, t.typ ≠ k) →
      fieldOf k r = fieldOf k newHost := by
    intro k hk hno
    apply hf k
    intro t ht
    simp at ht
    rcases ht with ht | rfl
    · exact hno t ht
    · exact fun h => (isKeyword_ne hk).2.2.2.1 h.symm
  refine ⟨fun h => ?_, fun h => ?_, fun h => ?_, fun h => ?_, fun h => ?_, fun h => ?_⟩
  · simpa [fieldOf, newHost] using key .itemPort rfl h
  · simpa [fieldOf, newHost] using key .itemHostName rfl h
  · simpa [fieldOf, newHost] using key .itemUser rfl h
  · simpa [fieldOf, newHost] using key .itemProxyCommand rfl h
  · simpa [fieldOf, newHost] using key .itemHostKeyAlgorithms rfl h
  · simpa [fieldOf, newHost] using key .itemIdentityFile rfl h

/-- The record a block yields satisfies `lastWins`. -/
theorem blockRecord_lastWins (h0 : SSHHost) (b : List item) (r : SSHHost)
    (hb : blockRecord h0 b r) : lastWins b r := by
  intro pre kw v post hbe hpost
  subst hbe
  refine ⟨fun h => ?_, fun h => ?_, fun h => ?_, fun h => ?_, fun h => ?_, fun h => ?_⟩
  all_goals
    have hkw : isKeyword kw.typ = true := by rw [h]; rfl
    rcases blockRecord_last h0 r pre post kw v hb hkw hpost with ⟨_, hv⟩ | ⟨hp, hv⟩
  all_goals first
    | exact hv
    | (rw [h] at hv; simp only [fieldOf, Sum.inl.injEq] at hv; exact hv)
    | (rw [h] at hp; cases hp)
    | (rename_i hne; rw [h] at hne; exact absurd rfl hne)

/-- The run over consecutive Host blocks without further directives. -/
theorem pairsStream_run (e : item) (rest : List item) (he : e.typ = .itemEOF) :
    ∀ (xs : List (item × item)) (h : SSHHost) (c : List SSHHost),
      (∀ y ∈ xs, y.1.typ = .itemHost ∧ y.2.typ = .itemHostValue) →
      parseLoop (pairsStream xs ++ e :: rest) (some h) c
        = ⟨c ++ h :: xs.map (fun y => { newHost with Host := Split y.2.val }), none, rest⟩ := by
  intro xs
  induction xs with
  | nil =>
    intro h c _
    simp only [pairsStream, List.nil_append, List.map_nil]
    exact parseLoop_eof e rest h c he
  | cons x xs ih =>
    intro h c hx
    have hx1 := hx x (List.mem_cons_self _ _)
    simp only [pairsStream, List.cons_append, List.map_cons]
    rw [parseLoop_host x.1 _ h c hx1.1, parseLoop_hostValue x.2 _ newHost _ hx1.2,
      ih _ _ (fun y hy => hx y (List.mem_cons_of_mem _ hy))]
    simp

/-- There are as many Host blocks as `Host` tokens in front of the first
end-of-input token. -/
theorem hostBlocks_length (l : List item) :
    (hostBlocks l).length
      = List.countP (fun t => t.typ = .itemHost) (l.takeWhile (fun t => t.typ ≠ .itemEOF)) := by
  induction l with
  | nil => simp [hostBlocks]
  | cons t r ih =>
    by_cases h1 : t.typ = .itemEOF
    · simp [hostBlocks, h1, List.takeWhile]
    · by_cases h2 : t.typ = .itemHost
      · simp [hostBlocks, h2, List.takeWhile, ih]
      · simp [hostBlocks, h1, h2, List.takeWhile, ih]

/-- The i-th Host block is the block behind the i-th `Host` token. -/
theorem hostBlocks_get : ∀ (l : List item) (i : Nat) (b : List item),
    (hostBlocks l)[i]? = some b →
    ∃ pre hostTok post, l = pre ++ hostTok :: post ∧ hostTok.typ = .itemHost
      ∧ (∀ t ∈ pre, t.typ ≠ .itemEOF)
      ∧ List.countP (fun t => t.typ = .itemHost) pre = i ∧ b = curBlock post := by
  intro l
  induction l with
  | nil => intro i b h; simp [hostBlocks] at h
  | cons t r ih =>
    intro i b h
    by_cases h1 : t.typ = .itemEOF
    · simp [hostBlocks, h1] at h
    · by_cases h2 : t.typ = .itemHost
      · simp only [hostBlocks, h2, reduceCtorEq, if_false, if_true] at h
        cases i with
        | zero =>
          simp at h
          exact ⟨[], t, r, rfl, h2, by simp, by simp, h.symm⟩
        | succ j =>
          simp at h
          obtain ⟨pre, hostTok, post, hl, hh, hpre, hcnt, hb⟩ := ih j b h
          refine ⟨t :: pre, hostTok, post, by simp [hl], hh, ?_, ?_, hb⟩
          · intro x hx
            simp at hx
            rcases hx with rfl | hx
            · exact h1
            · exact hpre x hx
          · simp [List.countP_cons, h2, hcnt]
      · simp only [hostBlocks, h1, h2, if_false] at h
        obtain ⟨pre, hostTok, post, hl, hh, hpre, hcnt, hb⟩ := ih i b h
        refine ⟨t :: pre, hostTok, post, by simp [hl], hh, ?_, ?_, hb⟩
        · intro x hx
          simp at hx
          rcases hx with rfl | hx
          · exact h1
          · exact hpre x hx
        · simp [List.countP_cons, h2, hcnt]

/-- Pairwise related lists are related index by index. -/
theorem forall₂_get_right {α β : Type} (R : α → β → Prop) :
    ∀ (as : List α) (bs : List β), List.Forall₂ R as bs →
    ∀ (i : Nat) (b : β), bs[i]? = some b → ∃ a, as[i]? = some a ∧ R a b := by
  intro as bs h
  induction h with
  | nil => intro i b hb; simp at hb
  | cons hab _ ih =>
    intro i b hb
    cases i with
    | zero => simp at hb; subst hb; exact ⟨_, by simp, hab⟩
    | succ j => simp at hb; simpa using ih j b hb

/-- The first iteration of `parse` on a `Host` token: lines 84-94. -/
theorem parse_host_cons (t : item) (r : List item) (ht : t.typ = .itemHost) :
    parse (t :: r) = (parseLoop r (some newHost) []).returned := by
  cases t; cases ht; rfl

/-- The record of a block is what `parse` returns for the block behind a `Host`
token and in front of an end-of-input token. -/
theorem blockRecord_parse (b : List item) (r : SSHHost) (hb : blockRecord newHost b r)
    (hostTok e : item) (hh : hostTok.typ = .itemHost) (he : e.typ = .itemEOF) :
    parse (hostTok :: b ++ [e]) = ([r], none) := by
  rw [List.cons_append, parse_host_cons hostTok _ hh, hb.2 e he]
  rfl

/-! ## Auxiliary lemmas: errors, unread tokens, composition, files -/

/-- A format without percent sign and without operands is written as it is. -/
theorem sprintf_plain (cs : List Char) (h : '%' ∉ cs) : sprintf cs [] = some cs := by
  induction cs with
  | nil => rfl
  | cons c cs ih =>
    have hc : c ≠ '%' := fun e => h (by simp [e])
    have ht : '%' ∉ cs := fun e => h (List.mem_cons_of_mem _ e)
    unfold sprintf
    simp [hc, ih ht]

/-- The message of `fmt.Errorf(s)` is `s` when `s` holds no percent sign. -/
theorem Sprintf_plain (s : String) (h : '%' ∉ s.data) : Sprintf s [] = some s := by
  simp [Sprintf, sprintf_plain s.data h]


/-- The first iteration with no Host block open: the guard of lines 84-86, then
the `Host` case. -/
theorem parseLoop_none_cons (t : item) (r : List item) (c : List SSHHost) :
    parseLoop (t :: r) none c
      = if t.typ ≠ .itemHost then ⟨[], some errNoHost, r⟩
        else parseLoop r (some newHost) c := by
  rfl

/-- One iteration of the loop either returns an error with no records, or
returns without error, or goes on with tokens that lie behind the retrieved
one. -/
theorem parseLoop_iter (t : item) (r : List item) (h : Option SSHHost) (c : List SSHHost) :
    (∃ e rem, parseLoop (t :: r) h c = ⟨[], some e, rem⟩ ∧ rem <:+ r)
      ∨ (∃ cfgs, parseLoop (t :: r) h c = ⟨cfgs, none, r⟩)
      ∨ (∃ r2 h2 c2, r2 <:+ r ∧ parseLoop (t :: r) h c = parseLoop r2 (some h2) c2) := by
  cases h with
  | none =>
    rw [parseLoop_none_cons]
    by_cases ht : t.typ = .itemHost
    · simp only [ht, ne_eq, not_true_eq_false, if_false]
      exact Or.inr (Or.inr ⟨r, newHost, c, List.suffix_refl r, rfl⟩)
    · simp only [ht, ne_eq, not_false_eq_true, if_true]
      exact Or.inl ⟨_, _, rfl, List.suffix_refl r⟩
  | some h =>
    rcases itemType_cases t.typ with ht | ht | ht | ht | ht | ht
    · exact Or.inr (Or.inr ⟨r, _, _, List.suffix_refl r, parseLoop_host t r h c ht⟩)
    · exact Or.inr (Or.inr ⟨r, _, _, List.suffix_refl r, parseLoop_hostValue t r h c ht⟩)
    · exact Or.inl ⟨_, _, parseLoop_error t r h c ht, List.suffix_refl r⟩
    · exact Or.inr (Or.inl ⟨_, parseLoop_eof t r h c ht⟩)
    · cases r with
      | nil => exact Or.inl ⟨_, _, parseLoop_keyword_last t h c ht, List.suffix_refl _⟩
      | cons n r2 =>
        rw [parseLoop_keyword t n r2 h c ht]
        by_cases hn : n.typ = .itemValue
        · simp only [hn, ne_eq, not_true_eq_false, if_false]
          cases assign t.typ n.val h with
          | error e => exact Or.inl ⟨_, _, rfl, List.suffix_cons n r2⟩
          | ok h2 => exact Or.inr (Or.inr ⟨r2, h2, c, List.suffix_cons n r2, rfl⟩)
        · simp only [hn, ne_eq, not_false_eq_true, if_true]
          exact Or.inl ⟨_, _, rfl, List.suffix_cons n r2⟩
    · exact Or.inr (Or.inr ⟨r, _, _, List.suffix_refl r, parseLoop_skipped t r h c ht⟩)

/-- The run on a lexer that is used up. -/
theorem parseLoop_nil (h : Option SSHHost) (c : List SSHHost) :
    parseLoop [] h c = ⟨[], some errNoHost, []⟩
      ∨ ∃ cfgs, parseLoop [] h c = ⟨cfgs, none, []⟩ := by
  cases h with
  | none => exact Or.inl rfl
  | some h => exact Or.inr ⟨_, rfl⟩

/-- A run that ends with an error returns no records. -/
theorem parseLoop_err_configs : ∀ (n : Nat) (l : List item), l.length ≤ n →
    ∀ (h : Option SSHHost) (c : List SSHHost),
      (parseLoop l h c).err ≠ none → (parseLoop l h c).configs = [] := by
  intro n
  induction n with
  | zero =>
    intro l hl h c
    have hl0 : l = [] := List.length_eq_zero.mp (Nat.le_zero.mp hl)
    subst hl0
    rcases parseLoop_nil h c with e | ⟨cfgs, e⟩ <;> rw [e] <;> simp
  | succ n ih =>
    intro l hl h c
    cases l with
    | nil => rcases parseLoop_nil h c with e | ⟨cfgs, e⟩ <;> rw [e] <;> simp
    | cons t r =>
      have hr : r.length ≤ n := by simpa using hl
      rcases parseLoop_iter t r h c with ⟨e, rem, he, _⟩ | ⟨cfgs, he⟩ | ⟨r2, h2, c2, hs, he⟩
      · rw [he]; simp
      · rw [he]; simp
      · rw [he]
        exact ih r2 (le_trans hs.length_le hr) (some h2) c2

/-- The unread tokens are a final stretch of the lexer, shorter than the lexer
unless the lexer was used up from the start. -/
theorem parseLoop_lexer_suffix : ∀ (n : Nat) (l : List item), l.length ≤ n →
    ∀ (h : Option SSHHost) (c : List SSHHost),
      (parseLoop l h c).lexer <:+ l
        ∧ (l ≠ [] → (parseLoop l h c).lexer.length < l.length) := by
  intro n
  induction n with
  | zero =>
    intro l hl h c
    have hl0 : l = [] := List.length_eq_zero.mp (Nat.le_zero.mp hl)
    subst hl0
    rcases parseLoop_nil h c with e | ⟨cfgs, e⟩ <;> rw [e] <;> simp
  | succ n ih =>
    intro l hl h c
    cases l with
    | nil => rcases parseLoop_nil h c with e | ⟨cfgs, e⟩ <;> rw [e] <;> simp
    | cons t r =>
      have hr : r.length ≤ n := by simpa using hl
      rcases parseLoop_iter t r h c with ⟨e, rem, he, hs⟩ | ⟨cfgs, he⟩ | ⟨r2, h2, c2, hs, he⟩
      · rw [he]
        refine ⟨hs.trans (List.suffix_cons t r), fun _ => ?_⟩
        have := hs.length_le
        simp only [List.length_cons]; omega
      · rw [he]
        exact ⟨List.suffix_cons t r, fun _ => by simp⟩
      · rw [he]
        have ih2 := (ih r2 (le_trans hs.length_le hr) (some h2) c2).1
        refine ⟨(ih2.trans hs).trans (List.suffix_cons t r), fun _ => ?_⟩
        have h1 := ih2.length_le
        have h2 := hs.length_le
        simp only [List.length_cons]; omega


/-- A stop token is an end-of-input or an error token, so neither `Host` nor a
generic value. -/
theorem isStop_typ (t : item) (ht : isStop t = true) :
    t.typ ≠ .itemHost ∧ t.typ ≠ .itemValue ∧ (t.typ = .itemEOF ∨ t.typ = .itemError) := by
  cases t with
  | mk typ pos val => cases typ <;> simp [isStop] at ht ⊢

/-- The run over a stretch without stop token followed by a stop token ends at
that token at the latest: its result does not depend on the tokens behind the
stop token, all of which stay unread. -/
theorem parseLoop_stops (t : item) (ht : isStop t = true) :
    ∀ (n : Nat) (pre : List item), pre.length ≤ n → (∀ x ∈ pre, isStop x = false) →
    ∀ (h : Option SSHHost) (c : List SSHHost),
      ∃ cfgs e extra, ∀ post,
        parseLoop (pre ++ t :: post) h c = ⟨cfgs, e, extra ++ post⟩ := by
  obtain ⟨t1, t2, _⟩ := isStop_typ t ht
  intro n
  induction n with
  | zero =>
    intro pre hl _ h c
    have hl0 : pre = [] := List.length_eq_zero.mp (Nat.le_zero.mp hl)
    subst hl0
    cases h with
    | none =>
      refine ⟨[], some errNoHost, [], fun post => ?_⟩
      simp [parseLoop_none_cons, t1]
    | some h =>
      rcases (isStop_typ t ht).2.2 with h1 | h1
      · exact ⟨_, _, [], fun post => by simpa using parseLoop_eof t post h c h1⟩
      · exact ⟨_, _, [], fun post => by simpa using parseLoop_error t post h c h1⟩
  | succ n ih =>
    intro pre hl hpre h c
    cases pre with
    | nil =>
      cases h with
      | none =>
        refine ⟨[], some errNoHost, [], fun post => ?_⟩
        simp [parseLoop_none_cons, t1]
      | some h =>
        rcases (isStop_typ t ht).2.2 with h1 | h1
        · exact ⟨_, _, [], fun post => by simpa using parseLoop_eof t post h c h1⟩
        · exact ⟨_, _, [], fun post => by simpa using parseLoop_error t post h c h1⟩
    | cons x r =>
      have hr : r.length ≤ n := by simpa using hl
      have hx : isStop x = false := hpre x (List.mem_cons_self _ _)
      have hrs : ∀ y ∈ r, isStop y = false := fun y hy => hpre y (List.mem_cons_of_mem _ hy)
      cases h with
      | none =>
        by_cases hh : x.typ = .itemHost
        · obtain ⟨cfgs, e, extra, hrun⟩ := ih r hr hrs (some newHost) c
          refine ⟨cfgs, e, extra, fun post => ?_⟩
          rw [List.cons_append, parseLoop_none_cons]
          simp only [hh, ne_eq, not_true_eq_false, if_false]
          exact hrun post
        · refine ⟨[], some errNoHost, r ++ [t], fun post => ?_⟩
          rw [List.cons_append, parseLoop_none_cons]
          simp [hh]
      | some h =>
        rcases itemType_cases x.typ with hk | hk | hk | hk | hk | hk
        · obtain ⟨cfgs, e, extra, hrun⟩ := ih r hr hrs (some newHost) (c ++ [h])
          exact ⟨cfgs, e, extra, fun post => by
            rw [List.cons_append, parseLoop_host x _ h c hk]; exact hrun post⟩
        · obtain ⟨cfgs, e, extra, hrun⟩ := ih r hr hrs (some { h with Host := Split x.val }) c
          exact ⟨cfgs, e, extra, fun post => by
            rw [List.cons_append, parseLoop_hostValue x _ h c hk]; exact hrun post⟩
        · simp [isStop, hk] at hx
        · simp [isStop, hk] at hx
        · cases r with
          | nil =>
            refine ⟨[], some (.Errorf t.val []), [], fun post => ?_⟩
            simp only [List.cons_append, List.nil_append]
            rw [parseLoop_keyword x t post h c hk]
            simp [t2]
          | cons y r2 =>
            have hr2 : r2.length ≤ n := by simp at hr; omega
            by_cases hy : y.typ = .itemValue
            · cases ha : assign x.typ y.val h with
              | error err =>
                refine ⟨[], some err, r2 ++ [t], fun post => ?_⟩
                simp only [List.cons_append]
                rw [parseLoop_keyword x y _ h c hk]
                simp [hy, ha]
              | ok h2 =>
                obtain ⟨cfgs, e, extra, hrun⟩ := ih r2 hr2
                  (fun z hz => hrs z (List.mem_cons_of_mem _ hz)) (some h2) c
                refine ⟨cfgs, e, extra, fun post => ?_⟩
                simp only [List.cons_append]
                rw [parseLoop_keyword x y _ h c hk]
                simp only [hy, ne_eq, not_true_eq_false, if_false, ha]
                exact hrun post
            · refine ⟨[], some (.Errorf y.val []), r2 ++ [t], fun post => ?_⟩
              simp only [List.cons_append]
              rw [parseLoop_keyword x y _ h c hk]
              simp [hy]
        · obtain ⟨cfgs, e, extra, hrun⟩ := ih r hr hrs (some h) c
          exact ⟨cfgs, e, extra, fun post => by
            rw [List.cons_append, parseLoop_skipped x _ h c hk]; exact hrun post⟩

/-- A stream with an end-of-input token has a first stop token. -/
theorem first_stop (l : List item) (hl : ∃ t ∈ l, t.typ = .itemEOF) :
    ∃ pre t post, l = pre ++ t :: post ∧ isStop t = true ∧ ∀ x ∈ pre, isStop x = false := by
  induction l with
  | nil => simp at hl
  | cons a r ih =>
    by_cases ha : isStop a = true
    · exact ⟨[], a, r, rfl, ha, by simp⟩
    · have ha2 : isStop a = false := by simpa using ha
      obtain ⟨t, ht, hte⟩ := hl
      have htr : t ∈ r := by
        rcases List.mem_cons.mp ht with rfl | h
        · simp [isStop, hte] at ha2
        · exact h
      obtain ⟨pre, s, post, hrl, hs, hpre⟩ := ih ⟨t, htr, hte⟩
      refine ⟨a :: pre, s, post, by simp [hrl], hs, ?_⟩
      intro x hx
      rcases List.mem_cons.mp hx with rfl | h
      · exact ha2
      · exact hpre x h


/-- The split of a payload has at least one pattern. -/
theorem Split_ne_nil (s : String) : Split s ≠ [] := by
  intro h
  have := congrArg (List.map String.data) h
  rw [Split_data] at this
  exact splitChars_ne_nil _ _ (by simpa using this)

/-- An assignment leaves the patterns alone. -/
theorem assign_host (k : itemType) (v : String) (h h2 : SSHHost)
    (ha : assign k v h = .ok h2) : h2.Host = h.Host := by
  cases k <;> simp only [assign] at ha
  case itemPort =>
    split at ha
    · cases ha
    · cases ha; rfl
  all_goals cases ha; rfl

/-- The pairing rule passes to the tokens behind the first. -/
theorem hostPaired_tail (t : item) (r : List item) (hp : hostPaired (t :: r) = true) :
    hostPaired r = true := by
  cases r with
  | nil => rfl
  | cons n r2 => simp [hostPaired] at hp; exact hp.2

/-- Under the pairing rule a `Host` token has a HostPatterns token behind it. -/
theorem hostPaired_host (t : item) (r : List item) (hp : hostPaired (t :: r) = true)
    (ht : t.typ = .itemHost) : ∃ v r2, r = v :: r2 ∧ v.typ = .itemHostValue := by
  cases r with
  | nil => simp [hostPaired, ht] at hp
  | cons n r2 =>
    simp [hostPaired, ht] at hp
    exact ⟨n, r2, rfl, hp.1⟩

/-- Under the pairing rule a successful run returns only records with patterns,
provided the records collected so far have patterns and the open record has
them or gets them from the next token. -/
theorem parseLoop_patterns : ∀ (n : Nat) (l : List item), l.length ≤ n →
    hostPaired l = true →
    ∀ (h : SSHHost) (c rs : List SSHHost) (rem : List item),
      (h.Host ≠ [] ∨ ∃ v r, l = v :: r ∧ v.typ = .itemHostValue) →
      (∀ x ∈ c, x.Host ≠ []) →
      parseLoop l (some h) c = ⟨rs, none, rem⟩ → ∀ x ∈ rs, x.Host ≠ [] := by
  intro n
  induction n with
  | zero =>
    intro l hl _ h c rs rem hh hc hok
    have hl0 : l = [] := List.length_eq_zero.mp (Nat.le_zero.mp hl)
    subst hl0
    simp [parseLoop] at hok
    rcases hh with hh | ⟨v, r, e, _⟩
    · intro x hx
      rw [← hok.1] at hx
      rcases List.mem_append.mp hx with hx | hx
      · exact hc x hx
      · simp at hx; rw [hx]; exact hh
    · cases e
  | succ n ih =>
    intro l hl hp h c rs rem hh hc hok
    cases l with
    | nil =>
      simp [parseLoop] at hok
      rcases hh with hh | ⟨v, r, e, _⟩
      · intro x hx
        rw [← hok.1] at hx
        rcases List.mem_append.mp hx with hx | hx
        · exact hc x hx
        · simp at hx; rw [hx]; exact hh
      · cases e
    | cons t r =>
      have hr : r.length ≤ n := by simpa using hl
      have hpr := hostPaired_tail t r hp
      have hopen : t.typ ≠ .itemHostValue → h.Host ≠ [] := by
        intro hne
        rcases hh with hh | ⟨v, r2, e, hv⟩
        · exact hh
        · simp at e; rw [← e.1] at hv; exact absurd hv hne
      have hch : t.typ ≠ .itemHostValue → ∀ x ∈ c ++ [h], x.Host ≠ [] := by
        intro hne x hx
        rcases List.mem_append.mp hx with hx | hx
        · exact hc x hx
        · simp at hx; rw [hx]; exact hopen hne
      rcases parseLoop_ok_step t r h c rs rem hok with
        ⟨ht, hrs, _⟩ | ⟨ht, hok2⟩ | ⟨ht, hok2⟩ | ⟨ht, hok2⟩ | ⟨ht, n1, r2, h2, hrn, hn, ha, hok2⟩
      · rw [hrs]; exact hch (by simp [ht])
      · exact ih r hr hpr newHost _ rs rem (Or.inr (hostPaired_host t r hp ht))
          (hch (by simp [ht])) hok2
      · exact ih r hr hpr _ c rs rem (Or.inl (Split_ne_nil _)) hc hok2
      · exact ih r hr hpr h c rs rem (Or.inl (hopen (isSkipped_ne ht).2.1)) hc hok2
      · subst hrn
        have hr2 : r2.length ≤ n := by simp at hr; omega
        have hh2 : h2.Host ≠ [] := by
          rw [assign_host _ _ _ _ ha]
          exact hopen (isKeyword_ne ht).2.1
        exact ih r2 hr2 (hostPaired_tail n1 r2 hpr) h2 c rs rem (Or.inl hh2) hc hok2

/-- A successful run over a stretch without end-of-input token, followed by an
end-of-input token, uses up the stretch: it appends records `d` to the
collected ones and reaches an open record `h2`, and does so whatever follows
the stretch and whatever was collected before. -/
theorem parseLoop_through : ∀ (n : Nat) (s : List item), s.length ≤ n →
    (∀ x ∈ s, x.typ ≠ .itemEOF) →
    ∀ (e : item) (rest : List item) (h : SSHHost) (c rs : List SSHHost) (rem : List item),
      parseLoop (s ++ e :: rest) (some h) c = ⟨rs, none, rem⟩ → e.typ = .itemEOF →
      ∃ h2 d, rs = c ++ d ++ [h2]
        ∧ ∀ (c0 : List SSHHost) (tail : List item),
            parseLoop (s ++ tail) (some h) c0 = parseLoop tail (some h2) (c0 ++ d) := by
  intro n
  induction n with
  | zero =>
    intro s hl _ e rest h c rs rem hok he
    have hl0 : s = [] := List.length_eq_zero.mp (Nat.le_zero.mp hl)
    subst hl0
    rw [List.nil_append, parseLoop_eof e rest h c he] at hok
    simp at hok
    exact ⟨h, [], by simp [hok.1], fun c0 tail => by simp⟩
  | succ n ih =>
    intro s hl hs e rest h c rs rem hok he
    cases s with
    | nil =>
      rw [List.nil_append, parseLoop_eof e rest h c he] at hok
      simp at hok
      exact ⟨h, [], by simp [hok.1], fun c0 tail => by simp⟩
    | cons t r =>
      have hr : r.length ≤ n := by simpa using hl
      have hrs : ∀ y ∈ r, y.typ ≠ .itemEOF := fun y hy => hs y (List.mem_cons_of_mem _ hy)
      rw [List.cons_append] at hok
      rcases parseLoop_ok_step t _ h c rs rem hok with
        ⟨ht, _, _⟩ | ⟨ht, hok2⟩ | ⟨ht, hok2⟩ | ⟨ht, hok2⟩ | ⟨ht, n1, r2, h2, hrn, hn, ha, hok2⟩
      · exact absurd ht (hs t (List.mem_cons_self _ _))
      · obtain ⟨h3, d, hrs3, hrun⟩ := ih r hr hrs e rest _ _ rs rem hok2 he
        refine ⟨h3, h :: d, by simpa using hrs3, fun c0 tail => ?_⟩
        rw [List.cons_append, parseLoop_host t _ h c0 ht, hrun]
        simp
      · obtain ⟨h3, d, hrs3, hrun⟩ := ih r hr hrs e rest _ _ rs rem hok2 he
        refine ⟨h3, d, hrs3, fun c0 tail => ?_⟩
        rw [List.cons_append, parseLoop_hostValue t _ h c0 ht, hrun]
      · obtain ⟨h3, d, hrs3, hrun⟩ := ih r hr hrs e rest _ _ rs rem hok2 he
        refine ⟨h3, d, hrs3, fun c0 tail => ?_⟩
        rw [List.cons_append, parseLoop_skipped t _ h c0 ht, hrun]
      · cases r with
        | nil =>
          simp at hrn
          rw [← hrn.1] at hn
          rw [he] at hn
          cases hn
        | cons y r3 =>
          simp at hrn
          obtain ⟨rfl, rfl⟩ := hrn
          have hr3 : r3.length ≤ n := by simp at hr; omega
          obtain ⟨h3, d, hrs3, hrun⟩ := ih r3 hr3
            (fun z hz => hrs z (List.mem_cons_of_mem _ hz)) e rest _ _ rs rem hok2 he
          refine ⟨h3, d, hrs3, fun c0 tail => ?_⟩
          simp only [List.cons_append]
          rw [parseLoop_keyword t y _ h c0 ht]
          simp only [hn, ne_eq, not_true_eq_false, if_false, ha]
          exact hrun c0 tail

/-- A result whose returned pair is a success. -/
theorem returned_eq_ok (r : parseResult) (rs : List SSHHost)
    (h : r.returned = (rs, none)) : r = ⟨rs, none, r.lexer⟩ := by
  cases r
  simp [parseResult.returned] at h
  simp [h]


/-- An iteration of the loop over files on a file that is read and parsed
without error: its records are appended. -/
theorem parseFiles_cons_ok (ReadFile : String → Except error String)
    (lex : String → List item) (v : String) (path : List String) (configs : List SSHHost)
    (hv : fileError ReadFile lex v = none) :
    parseFiles ReadFile lex (v :: path) configs
      = parseFiles ReadFile lex path (configs ++ fileRecords ReadFile lex v) := by
  unfold fileError at hv
  unfold fileRecords
  rw [parseFiles]
  cases hr : ReadFile v with
  | error err => rw [hr] at hv; simp at hv
  | ok content =>
    rw [hr] at hv
    simp only at hv ⊢
    rcases hp : parse (lex content) with ⟨rs, _ | e2⟩
    · rfl
    · rw [hp] at hv; simp at hv

/-- An iteration of the loop over files on a file whose reading or parsing
fails: the loop returns that error and no records. -/
theorem parseFiles_cons_fail (ReadFile : String → Except error String)
    (lex : String → List item) (v : String) (path : List String) (configs : List SSHHost)
    (e : error) (hv : fileError ReadFile lex v = some e) :
    parseFiles ReadFile lex (v :: path) configs = ([], some e) := by
  unfold fileError at hv
  rw [parseFiles]
  cases hr : ReadFile v with
  | error err => rw [hr] at hv; simp at hv; simp [hv]
  | ok content =>
    rw [hr] at hv
    simp only at hv ⊢
    rcases hp : parse (lex content) with ⟨rs, _ | e2⟩
    · rw [hp] at hv; simp at hv
    · rw [hp] at hv; simp at hv; simp [hv]

/-- The loop over files whose reading and parsing all succeed returns the
records collected so far followed by the records of the files, in order. -/
theorem parseFiles_ok (ReadFile : String → Except error String) (lex : String → List item) :
    ∀ (path : List String) (configs : List SSHHost),
      (∀ v ∈ path, fileError ReadFile lex v = none) →
      parseFiles ReadFile lex path configs
        = (configs ++ path.flatMap (fileRecords ReadFile lex), none) := by
  intro path
  induction path with
  | nil => intro configs _; simp [parseFiles]
  | cons v path ih =>
    intro configs hok
    rw [parseFiles_cons_ok _ _ _ _ _ (hok v (List.mem_cons_self _ _)),
      ih _ (fun w hw => hok w (List.mem_cons_of_mem _ hw))]
    simp [List.flatMap_cons]

/-- The loop over files stops at the first file whose reading or parsing
fails, with the error of that file and no records. -/
theorem parseFiles_fail (ReadFile : String → Except error String) (lex : String → List item)
    (f : String) (later : List String) (e : error)
    (hf : fileError ReadFile lex f = some e) :
    ∀ (pre : List String) (configs : List SSHHost),
      (∀ v ∈ pre, fileError ReadFile lex v = none) →
      parseFiles ReadFile lex (pre ++ f :: later) configs = ([], some e) := by
  intro pre
  induction pre with
  | nil =>
    intro configs _
    exact parseFiles_cons_fail _ _ _ _ _ _ hf
  | cons v pre ih =>
    intro configs hok
    rw [List.cons_append, parseFiles_cons_ok _ _ _ _ _ (hok v (List.mem_cons_self _ _))]
    exact ih _ (fun w hw => hok w (List.mem_cons_of_mem _ hw))

/-- The error of a file depends on the file reader only through its value at
that file. -/
theorem fileError_congr (R R2 : String → Except error String) (lex : String → List item)
    (v : String) (h : R2 v = R v) : fileError R2 lex v = fileError R lex v := by
  simp [fileError, h]

/-! ## Theorems -/

/-- C1: on the token stream of the specification's example input, `parse`
succeeds and returns exactly the two records of the example, in order; the
positions and the payloads of the keyword tokens are arbitrary. -/
theorem parse_example (p : Nat → Int) (k : Nat → String) :
    parse [⟨.itemHost, p 0, k 0⟩, ⟨.itemHostValue, p 1, "foo bar"⟩,
      ⟨.itemHostName, p 2, k 2⟩, ⟨.itemValue, p 3, "10.0.0.1"⟩,
      ⟨.itemUser, p 4, k 4⟩, ⟨.itemValue, p 5, "root"⟩,
      ⟨.itemPort, p 6, k 6⟩, ⟨.itemValue, p 7, "2200"⟩,
      ⟨.itemHost, p 8, k 8⟩, ⟨.itemHostValue, p 9, "baz"⟩,
      ⟨.itemHostName, p 10, k 10⟩, ⟨.itemValue, p 11, "10.0.0.2"⟩,
      ⟨.itemEOF, p 12, k 12⟩]
    = ([{ Host := ["foo", "bar"], HostName := "10.0.0.1", User := "root", Port := 2200,
          ProxyCommand := "", HostKeyAlgorithms := "", IdentityFile := "" },
        { Host := ["baz"], HostName := "10.0.0.2", User := "", Port := 22,
          ProxyCommand := "", HostKeyAlgorithms := "", IdentityFile := "" }], none) := by
  rfl

/-- C2 (the code at the failing input): on a token stream whose first token is
end-of-input, whatever follows, `parse` does not succeed: the guard of line 84
fires, since `sshHost` is nil and the token is not a `Host` token, and the
result is the error "config variable before Host variable" with no records. -/
theorem parse_eof_first (pos : Int) (val : String) (rest : List item) :
    parse (⟨.itemEOF, pos, val⟩ :: rest)
      = ([], some (.Errorf "config variable before Host variable" [])) := by
  rfl

/-- C3: on a token stream whose first token is not the `Host` keyword (so in
particular a HostPatterns value, HostName, User, Port, ProxyCommand,
HostKeyAlgorithms, IdentityFile, generic value or ignorable token), `parse`
fails with the error "config variable before Host variable", returns no
records, and leaves every token after the first one unretrieved. -/
theorem parse_directive_before_host (t : item) (rest : List item)
    (ht : t.typ ≠ .itemHost) :
    parse (t :: rest) = ([], some (.Errorf "config variable before Host variable" []))
      ∧ unread (t :: rest) = rest := by
  simp [parse, unread, parseLoop, ht, errNoHost]

/-- Witness for C3: a `User` keyword token first, two more tokens behind it. -/
theorem parse_directive_before_host_witness :
    (⟨.itemUser, 0, "User"⟩ : item).typ ≠ .itemHost
      ∧ parse [⟨.itemUser, 0, "User"⟩, ⟨.itemValue, 5, "root"⟩, ⟨.itemEOF, 9, ""⟩]
          = ([], some (.Errorf "config variable before Host variable" []))
      ∧ unread [⟨.itemUser, 0, "User"⟩, ⟨.itemValue, 5, "root"⟩, ⟨.itemEOF, 9, ""⟩]
          = [⟨.itemValue, 5, "root"⟩, ⟨.itemEOF, 9, ""⟩] :=
  ⟨by decide, parse_directive_before_host _ _ (by decide)⟩

/-- C4: for each of the five opaque directives and every string `v`, the stream
(Host, HostPatterns `pat`, keyword, generic value `v`, end-of-input) parses to
exactly one record whose field for that directive is `v` itself, unchanged,
whose other string fields are empty and whose Port is 22. -/
theorem parse_opaque_value (p : Nat → Int) (k : Nat → String) (pat v : String) :
    parse [⟨.itemHost, p 0, k 0⟩, ⟨.itemHostValue, p 1, pat⟩,
        ⟨.itemHostName, p 2, k 2⟩, ⟨.itemValue, p 3, v⟩, ⟨.itemEOF, p 4, k 4⟩]
      = ([{ Host := Split pat, HostName := v, User := "", Port := 22,
            ProxyCommand := "", HostKeyAlgorithms := "", IdentityFile := "" }], none)
    ∧ parse [⟨.itemHost, p 0, k 0⟩, ⟨.itemHostValue, p 1, pat⟩,
        ⟨.itemUser, p 2, k 2⟩, ⟨.itemValue, p 3, v⟩, ⟨.itemEOF, p 4, k 4⟩]
      = ([{ Host := Split pat, HostName := "", User := v, Port := 22,
            ProxyCommand := "", HostKeyAlgorithms := "", IdentityFile := "" }], none)
    ∧ parse [⟨.itemHost, p 0, k 0⟩, ⟨.itemHostValue, p 1, pat⟩,
        ⟨.itemProxyCommand, p 2, k 2⟩, ⟨.itemValue, p 3, v⟩, ⟨.itemEOF, p 4, k 4⟩]
      = ([{ Host := Split pat, HostName := "", User := "", Port := 22,
            ProxyCommand := v, HostKeyAlgorithms := "", IdentityFile := "" }], none)
    ∧ parse [⟨.itemHost, p 0, k 0⟩, ⟨.itemHostValue, p 1, pat⟩,
        ⟨.itemHostKeyAlgorithms, p 2, k 2⟩, ⟨.itemValue, p 3, v⟩, ⟨.itemEOF, p 4, k 4⟩]
      = ([{ Host := Split pat, HostName := "", User := "", Port := 22,
            ProxyCommand := "", HostKeyAlgorithms := v, IdentityFile := "" }], none)
    ∧ parse [⟨.itemHost, p 0, k 0⟩, ⟨.itemHostValue, p 1, pat⟩,
        ⟨.itemIdentityFile, p 2, k 2⟩, ⟨.itemValue, p 3, v⟩, ⟨.itemEOF, p 4, k 4⟩]
      = ([{ Host := Split pat, HostName := "", User := "", Port := 22,
            ProxyCommand := "", HostKeyAlgorithms := "", IdentityFile := v }], none) :=
  ⟨rfl, rfl, rfl, rfl, rfl⟩

/-- C5 (counterexample): for the payload "a  b" followed by a tab and "c", the
Host list that `parse` assigns is ["a", "", "b<tab>c"], with an empty-string
pattern and an unsplit tab, while the maximal white-space-free substrings are
"a", "b", "c". -/
theorem hostValue_not_whitespace_split :
    (parse [⟨.itemHost, 0, "Host"⟩, ⟨.itemHostValue, 5, "a  b\tc"⟩,
        ⟨.itemEOF, 11, ""⟩]).1.map SSHHost.Host = [["a", "", "b\tc"]]
      ∧ whitespaceFields "a  b\tc" = ["a", "b", "c"]
      ∧ (parse [⟨.itemHost, 0, "Host"⟩, ⟨.itemHostValue, 5, "a  b\tc"⟩,
          ⟨.itemEOF, 11, ""⟩]).1.map SSHHost.Host ≠ [whitespaceFields "a  b\tc"] := by
  decide

/-- C5 (amended): for every HostPatterns payload `s`, the Host list that
`parse` assigns to the open record is `s` cut at every single space character
(U+0020): no further token is retrieved for it, joining the pieces with single
spaces gives back `s`, no piece contains a space, and there is one piece more
than there are spaces in `s` (so two adjacent spaces give an empty-string
pattern, and a tab separates nothing). -/
theorem hostValue_split (p : Nat → Int) (k : Nat → String) (s : String)
    (rest : List item) (sshHost : SSHHost) (sshConfigs : List SSHHost) :
    parseLoop (⟨.itemHostValue, p 1, s⟩ :: rest) (some sshHost) sshConfigs
        = parseLoop rest (some { sshHost with Host := Split s }) sshConfigs
      ∧ parse [⟨.itemHost, p 0, k 0⟩, ⟨.itemHostValue, p 1, s⟩, ⟨.itemEOF, p 2, k 2⟩]
        = ([{ newHost with Host := Split s }], none)
      ∧ List.intercalate [' '] ((Split s).map String.data) = s.data
      ∧ (∀ w ∈ Split s, ' ' ∉ w.data)
      ∧ (Split s).length = s.data.count ' ' + 1 := by
  refine ⟨rfl, rfl, ?_, ?_, ?_⟩
  · rw [Split_data]; exact splitChars_intercalate ' ' s.data
  · intro w hw
    have hmem : w.data ∈ (Split s).map String.data := List.mem_map_of_mem _ hw
    rw [Split_data] at hmem
    exact splitChars_no_sep ' ' s.data _ hmem
  · have h := congrArg List.length (Split_data s)
    rw [List.length_map] at h
    rw [h]; exact splitChars_length ' ' s.data

/-- C6: inside an open Host block, a `Port` keyword token followed by a generic
value token with payload `v`: when `strconv.Atoi` converts `v` to `n` (as it
converts "2200" to 2200) the open record gets Port `n` and the loop goes on
with the tokens behind the value; when `strconv.Atoi` rejects `v` (as it
rejects "abc") `parse` stops with the `*strconv.NumError` of the conversion,
which is not an error built by `fmt.Errorf`, and returns no records. The
conversion accepts every non-empty string of decimal digits whose value is
below 2^63, with that value, and rejects every string that starts with a
character other than a sign or a decimal digit. -/
theorem port_value (p : Nat → Int) (k : Nat → String) (v pat : String)
    (rest : List item) (sshHost : SSHHost) (sshConfigs : List SSHHost) :
    (∀ n, Atoi v = .ok n →
        parseLoop (⟨.itemPort, p 2, k 2⟩ :: ⟨.itemValue, p 3, v⟩ :: rest) (some sshHost)
            sshConfigs
          = parseLoop rest (some { sshHost with Port := n }) sshConfigs)
      ∧ (∀ e, Atoi v = .error e →
          parseLoop (⟨.itemPort, p 2, k 2⟩ :: ⟨.itemValue, p 3, v⟩ :: rest) (some sshHost)
              sshConfigs
            = ⟨[], some e, rest⟩
          ∧ (e = .NumError "Atoi" v .ErrSyntax ∨ e = .NumError "Atoi" v .ErrRange))
      ∧ Atoi "2200" = .ok 2200
      ∧ parse [⟨.itemHost, p 0, k 0⟩, ⟨.itemHostValue, p 1, pat⟩, ⟨.itemPort, p 2, k 2⟩,
          ⟨.itemValue, p 3, "2200"⟩, ⟨.itemEOF, p 4, k 4⟩]
        = ([{ newHost with Host := Split pat, Port := 2200 }], none)
      ∧ Atoi "abc" = .error (.NumError "Atoi" "abc" .ErrSyntax)
      ∧ parse [⟨.itemHost, p 0, k 0⟩, ⟨.itemHostValue, p 1, pat⟩, ⟨.itemPort, p 2, k 2⟩,
          ⟨.itemValue, p 3, "abc"⟩, ⟨.itemEOF, p 4, k 4⟩]
        = ([], some (.NumError "Atoi" "abc" .ErrSyntax))
      ∧ (∀ ds : List Char, ds ≠ [] → (∀ c ∈ ds, '0' ≤ c ∧ c ≤ '9') →
          decimalValue ds 0 < 2 ^ 63 →
          Atoi (String.mk ds) = .ok (decimalValue ds 0 : Nat))
      ∧ (∀ (c : Char) (cs : List Char), ¬ ('0' ≤ c ∧ c ≤ '9') → c ≠ '+' → c ≠ '-' →
          Atoi (String.mk (c :: cs))
            = .error (.NumError "Atoi" (String.mk (c :: cs)) .ErrSyntax)) := by
  refine ⟨?_, ?_, rfl, rfl, rfl, rfl, Atoi_digits, Atoi_not_number⟩
  · intro n hn
    simp [parseLoop, hn]
  · intro e he
    simp [parseLoop, he]
    unfold Atoi at he
    split at he
    · cases he
    · rename_i e2 _
      cases he
      cases e2 <;> simp


/-- C7: in every successful parse the records match the Host blocks one to
one, in order, and a record whose block holds no keyword token for a field has
that field at its default (Port 22, the five strings empty), whatever earlier
blocks set. In particular a stream of one or more consecutive Host blocks,
each only a `Host` token and its HostPatterns token, followed by end-of-input,
parses to one record per block with Port 22 and empty string fields. -/
theorem defaults_kept :
    (∀ (toks : List item) (rs : List SSHHost), parse toks = (rs, none) →
        List.Forall₂ defaultsKept (hostBlocks toks) rs)
      ∧ ∀ (x : item × item) (xs : List (item × item)) (e : item) (rest : List item),
          (∀ y ∈ x :: xs, y.1.typ = .itemHost ∧ y.2.typ = .itemHostValue) →
          e.typ = .itemEOF →
          parse (pairsStream (x :: xs) ++ e :: rest)
            = ((x :: xs).map (fun y =>
                ({ Host := Split y.2.val, HostName := "", User := "", Port := 22,
                   ProxyCommand := "", HostKeyAlgorithms := "", IdentityFile := "" }
                  : SSHHost)), none) := by
  constructor
  · intro toks rs hok
    exact (parse_ok_blocks toks rs hok).imp blockRecord_defaults
  · intro x xs e rest hx he
    have hx1 := hx x (List.mem_cons_self _ _)
    simp only [pairsStream, List.cons_append]
    rw [parse_host_cons x.1 _ hx1.1, parseLoop_hostValue x.2 _ newHost _ hx1.2,
      pairsStream_run e rest he xs _ _ (fun y hy => hx y (List.mem_cons_of_mem _ hy))]
    simp [parseResult.returned, newHost]

/-- Witness for C7: two blocks, the first with a Port and a User directive, the
second with none; the second record has Port 22 and an empty User. -/
theorem defaults_kept_witness :
    parse [⟨.itemHost, 0, "Host"⟩, ⟨.itemHostValue, 5, "a"⟩, ⟨.itemPort, 7, "Port"⟩,
        ⟨.itemValue, 12, "2200"⟩, ⟨.itemUser, 17, "User"⟩, ⟨.itemValue, 22, "root"⟩,
        ⟨.itemHost, 27, "Host"⟩, ⟨.itemHostValue, 32, "b"⟩, ⟨.itemEOF, 33, ""⟩]
      = ([{ newHost with Host := ["a"], Port := 2200, User := "root" },
          { newHost with Host := ["b"] }], none)
    ∧ List.Forall₂ defaultsKept
        (hostBlocks [⟨.itemHost, 0, "Host"⟩, ⟨.itemHostValue, 5, "a"⟩, ⟨.itemPort, 7, "Port"⟩,
          ⟨.itemValue, 12, "2200"⟩, ⟨.itemUser, 17, "User"⟩, ⟨.itemValue, 22, "root"⟩,
          ⟨.itemHost, 27, "Host"⟩, ⟨.itemHostValue, 32, "b"⟩, ⟨.itemEOF, 33, ""⟩])
        [{ newHost with Host := ["a"], Port := 2200, User := "root" },
          { newHost with Host := ["b"] }] :=
  ⟨rfl, defaults_kept.1 _ _ rfl⟩

/-- C8: in every successful parse the records match the Host blocks one to
one, in order, and when a directive keyword occurs several times in a block
the record's field holds the value of its last occurrence in that block (for
Port, the integer converted from the last Port value). -/
theorem last_occurrence_wins (toks : List item) (rs : List SSHHost)
    (hok : parse toks = (rs, none)) :
    List.Forall₂ lastWins (hostBlocks toks) rs :=
  (parse_ok_blocks toks rs hok).imp (blockRecord_lastWins newHost)

/-- Witness for C8: a block with User given twice and Port given twice. -/
theorem last_occurrence_wins_witness :
    parse [⟨.itemHost, 0, "Host"⟩, ⟨.itemHostValue, 5, "a"⟩, ⟨.itemUser, 7, "User"⟩,
        ⟨.itemValue, 12, "x"⟩, ⟨.itemPort, 14, "Port"⟩, ⟨.itemValue, 19, "1"⟩,
        ⟨.itemUser, 21, "User"⟩, ⟨.itemValue, 26, "y"⟩, ⟨.itemPort, 28, "Port"⟩,
        ⟨.itemValue, 33, "2"⟩, ⟨.itemEOF, 34, ""⟩]
      = ([{ newHost with Host := ["a"], User := "y", Port := 2 }], none)
    ∧ List.Forall₂ lastWins
        (hostBlocks [⟨.itemHost, 0, "Host"⟩, ⟨.itemHostValue, 5, "a"⟩, ⟨.itemUser, 7, "User"⟩,
          ⟨.itemValue, 12, "x"⟩, ⟨.itemPort, 14, "Port"⟩, ⟨.itemValue, 19, "1"⟩,
          ⟨.itemUser, 21, "User"⟩, ⟨.itemValue, 26, "y"⟩, ⟨.itemPort, 28, "Port"⟩,
          ⟨.itemValue, 33, "2"⟩, ⟨.itemEOF, 34, ""⟩])
        [{ newHost with Host := ["a"], User := "y", Port := 2 }] :=
  ⟨rfl, last_occurrence_wins _ _ rfl⟩

/-- C9: for every token stream on which `parse` succeeds, the number of records
equals the number of `Host` keyword tokens in front of the first end-of-input
token, and the i-th record (counting from 0) belongs to the i-th such `Host`
token: it is the record that this token and the tokens of its block, up to the
next `Host` or end-of-input token, yield when parsed on their own. Nothing is
merged or dropped, whatever the patterns of the blocks. -/
theorem records_in_declaration_order (toks : List item) (rs : List SSHHost)
    (hok : parse toks = (rs, none)) :
    rs.length = List.countP (fun t => t.typ = .itemHost)
        (toks.takeWhile (fun t => t.typ ≠ .itemEOF))
      ∧ ∀ (i : Nat) (r : SSHHost), rs[i]? = some r →
          ∃ pre hostTok post, toks = pre ++ hostTok :: post ∧ hostTok.typ = .itemHost
            ∧ (∀ t ∈ pre, t.typ ≠ .itemEOF)
            ∧ List.countP (fun t => t.typ = .itemHost) pre = i
            ∧ ∀ e : item, e.typ = .itemEOF →
                parse (hostTok :: curBlock post ++ [e]) = ([r], none) := by
  have hf := parse_ok_blocks toks rs hok
  constructor
  · rw [← hostBlocks_length, hf.length_eq]
  · intro i r hr
    obtain ⟨b, hb, hrec⟩ := forall₂_get_right _ _ _ hf i r hr
    obtain ⟨pre, hostTok, post, hl, hh, hpre, hcnt, hbe⟩ := hostBlocks_get toks i b hb
    subst hbe
    exact ⟨pre, hostTok, post, hl, hh, hpre, hcnt,
      fun e he => blockRecord_parse _ r hrec hostTok e hh he⟩

/-- Witness for C9: three blocks, the first and the third with the same
pattern; three records come back, in the order of the blocks. -/
theorem records_in_declaration_order_witness :
    parse [⟨.itemHost, 0, "Host"⟩, ⟨.itemHostValue, 5, "a"⟩, ⟨.itemUser, 7, "User"⟩,
        ⟨.itemValue, 12, "x"⟩, ⟨.itemHost, 14, "Host"⟩, ⟨.itemHostValue, 19, "b"⟩,
        ⟨.itemHost, 21, "Host"⟩, ⟨.itemHostValue, 26, "a"⟩, ⟨.itemEOF, 27, ""⟩]
      = ([{ newHost with Host := ["a"], User := "x" }, { newHost with Host := ["b"] },
          { newHost with Host := ["a"] }], none)
    ∧ ([{ newHost with Host := ["a"], User := "x" }, { newHost with Host := ["b"] },
          { newHost with Host := ["a"] }] : List SSHHost).length
        = List.countP (fun t => t.typ = .itemHost)
            (([⟨.itemHost, 0, "Host"⟩, ⟨.itemHostValue, 5, "a"⟩, ⟨.itemUser, 7, "User"⟩,
              ⟨.itemValue, 12, "x"⟩, ⟨.itemHost, 14, "Host"⟩, ⟨.itemHostValue, 19, "b"⟩,
              ⟨.itemHost, 21, "Host"⟩, ⟨.itemHostValue, 26, "a"⟩,
              ⟨.itemEOF, 27, ""⟩] : List item).takeWhile (fun t => t.typ ≠ .itemEOF)) :=
  ⟨rfl, (records_in_declaration_order _ _ rfl).1⟩

/-- C10: for every token stream on which `parse` succeeds, inserting two tokens
that the loop skips (an ignorable-directive token and its value token; the
kinds of the `default:` branch) at a top-level position behind the first
`Host` keyword token gives a stream on which `parse` succeeds with exactly the
same list of records. -/
theorem insert_ignored_pair (hostTok a b : item) (pre post : List item)
    (rs : List SSHHost) (hhost : hostTok.typ = .itemHost) (htop : topLevel pre = true)
    (ha : isSkipped a.typ = true) (hb : isSkipped b.typ = true)
    (hok : parse (hostTok :: pre ++ post) = (rs, none)) :
    parse (hostTok :: pre ++ a :: b :: post) = (rs, none) := by
  have h := returned_insert_skipped a b post ha hb pre newHost [] htop
  rw [List.cons_append, parse_host_cons hostTok _ hhost] at hok ⊢
  exact h.trans hok

/-- Witness for C10: `Compression yes` inserted between a HostName and a Port
directive. -/
theorem insert_ignored_pair_witness :
    parse ((⟨.itemHost, 0, "Host"⟩ : item)
        :: [⟨.itemHostValue, 5, "a"⟩, ⟨.itemHostName, 7, "HostName"⟩, ⟨.itemValue, 16, "h"⟩]
        ++ (⟨.itemIgnored 0, 18, "Compression"⟩ : item) :: ⟨.itemIgnored 1, 30, "yes"⟩
        :: [⟨.itemPort, 34, "Port"⟩, ⟨.itemValue, 39, "2200"⟩, ⟨.itemEOF, 43, ""⟩])
      = ([{ newHost with Host := ["a"], HostName := "h", Port := 2200 }], none) :=
  insert_ignored_pair _ _ _ _ _ _ rfl rfl rfl rfl rfl

/-- C11 (the code at the failing input): inside an open Host block a directive
keyword token takes exactly one more token, and when that token is not a
generic value `parse` fails with no records and the error
`fmt.Errorf(next.val)`, leaving the tokens behind it unread. The payload is
the format string of that call: its message is the payload itself when the
payload holds no percent sign, but for the error token with payload
"bad 100%" behind a `User` keyword the message is "bad 100%!(NOVERB)", not
the payload. -/
theorem unexpected_token_message :
    (∀ (kw n : item) (rest : List item) (sshHost : SSHHost) (sshConfigs : List SSHHost),
        isKeyword kw.typ = true → n.typ ≠ .itemValue →
        parseLoop (kw :: n :: rest) (some sshHost) sshConfigs
          = ⟨[], some (.Errorf n.val []), rest⟩)
      ∧ (∀ s : String, '%' ∉ s.data → Sprintf s [] = some s)
      ∧ parse [⟨.itemHost, 0, "Host"⟩, ⟨.itemHostValue, 5, "a"⟩, ⟨.itemUser, 7, "User"⟩,
          ⟨.itemError, 11, "bad 100%"⟩, ⟨.itemEOF, 19, ""⟩]
        = ([], some (.Errorf "bad 100%" []))
      ∧ Sprintf "bad 100%" [] = some "bad 100%!(NOVERB)"
      ∧ Sprintf "bad 100%" [] ≠ some "bad 100%" := by
  refine ⟨?_, Sprintf_plain, rfl, by decide, by decide⟩
  intro kw n rest sshHost sshConfigs hk hn
  rw [parseLoop_keyword kw n rest sshHost sshConfigs hk]
  simp [hn]

/-- C12 (counterexample): with no Host block open, the error token with payload
"bad" at position 3 makes `parse` fail with the message "config variable
before Host variable", which is not "bad at pos 3". -/
theorem error_token_before_host :
    parse [⟨.itemError, 3, "bad"⟩, ⟨.itemEOF, 4, ""⟩]
        = ([], some (.Errorf "config variable before Host variable" []))
      ∧ Sprintf "config variable before Host variable" []
        = some "config variable before Host variable"
      ∧ Sprintf "%s at pos %d" [.str "bad", .int 3] = some "bad at pos 3"
      ∧ Sprintf "config variable before Host variable" []
        ≠ Sprintf "%s at pos %d" [.str "bad", .int 3] := by
  decide

/-- C12 (amended): when the token retrieved at the top of the loop is an error
token with payload `m` and position `p`, `parse` stops at once, returns no
records and leaves the tokens behind it unread. With a Host block open the
error is `fmt.Errorf("%s at pos %d", m, p)`, whose message is `m`, then
" at pos ", then `p` in decimal; with no Host block open yet it is the error
of line 85, "config variable before Host variable". -/
theorem error_token_aborts (m : String) (p : Int) (rest : List item)
    (sshHost : SSHHost) (sshConfigs : List SSHHost) (q : Nat → Int) (k : Nat → String)
    (pat : String) :
    parseLoop (⟨.itemError, p, m⟩ :: rest) (some sshHost) sshConfigs
        = ⟨[], some (.Errorf "%s at pos %d" [.str m, .int p]), rest⟩
      ∧ parse (⟨.itemHost, q 0, k 0⟩ :: ⟨.itemHostValue, q 1, pat⟩
          :: ⟨.itemError, p, m⟩ :: rest)
        = ([], some (.Errorf "%s at pos %d" [.str m, .int p]))
      ∧ Sprintf "%s at pos %d" [.str m, .int p] = some (m ++ " at pos " ++ toString p)
      ∧ parseLoop (⟨.itemError, p, m⟩ :: rest) none sshConfigs
        = ⟨[], some (.Errorf "config variable before Host variable" []), rest⟩
      ∧ parse (⟨.itemError, p, m⟩ :: rest)
        = ([], some (.Errorf "config variable before Host variable" []))
      ∧ Sprintf "config variable before Host variable" []
        = some "config variable before Host variable" := by
  refine ⟨rfl, rfl, ?_, rfl, rfl, by decide⟩
  simp only [Sprintf, sprintf]
  simp
  apply String.ext
  simp

/-- C13: whenever `parse` returns an error, the record list it returns is
empty, however many Host blocks were completed before the offending token. -/
theorem parse_error_no_records (toks : List item) (herr : (parse toks).2 ≠ none) :
    (parse toks).1 = [] :=
  parseLoop_err_configs toks.length toks (le_refl _) none [] herr

/-- Witness for C13: two complete Host blocks, then a Port value that is not a
number. -/
theorem parse_error_no_records_witness :
    (parse [⟨.itemHost, 0, "Host"⟩, ⟨.itemHostValue, 5, "a"⟩, ⟨.itemHost, 7, "Host"⟩,
        ⟨.itemHostValue, 12, "b"⟩, ⟨.itemHost, 14, "Host"⟩, ⟨.itemHostValue, 19, "c"⟩,
        ⟨.itemPort, 21, "Port"⟩, ⟨.itemValue, 26, "abc"⟩, ⟨.itemEOF, 29, ""⟩]).2 ≠ none
      ∧ (parse [⟨.itemHost, 0, "Host"⟩, ⟨.itemHostValue, 5, "a"⟩, ⟨.itemHost, 7, "Host"⟩,
        ⟨.itemHostValue, 12, "b"⟩, ⟨.itemHost, 14, "Host"⟩, ⟨.itemHostValue, 19, "c"⟩,
        ⟨.itemPort, 21, "Port"⟩, ⟨.itemValue, 26, "abc"⟩, ⟨.itemEOF, 29, ""⟩]).1 = [] :=
  ⟨by decide, parse_error_no_records _ (by decide)⟩

/-- C14: on a token stream in which every `Host` keyword token is immediately
followed by a HostPatterns value token, every record of a successful parse has
a non-empty Host (patterns) list. -/
theorem records_have_patterns (toks : List item) (rs : List SSHHost)
    (hpair : hostPaired toks = true) (hok : parse toks = (rs, none)) :
    ∀ r ∈ rs, r.Host ≠ [] := by
  cases toks with
  | nil => simp [parse, parseLoop] at hok
  | cons t rest =>
    by_cases ht : t.typ = .itemHost
    · rw [parse_host_cons t rest ht] at hok
      have hok2 := returned_eq_ok _ rs hok
      exact parseLoop_patterns rest.length rest (le_refl _) (hostPaired_tail t rest hpair)
        newHost [] rs _ (Or.inr (hostPaired_host t rest hpair ht)) (by simp) hok2
    · simp [parse, parseLoop_none_cons, ht] at hok

/-- Witness for C14: two blocks, the second with an empty HostPatterns payload;
its record has the one-element list holding the empty string. -/
theorem records_have_patterns_witness :
    hostPaired [⟨.itemHost, 0, "Host"⟩, ⟨.itemHostValue, 5, "a b"⟩, ⟨.itemUser, 9, "User"⟩,
        ⟨.itemValue, 14, "u"⟩, ⟨.itemHost, 16, "Host"⟩, ⟨.itemHostValue, 20, ""⟩,
        ⟨.itemEOF, 21, ""⟩] = true
      ∧ parse [⟨.itemHost, 0, "Host"⟩, ⟨.itemHostValue, 5, "a b"⟩, ⟨.itemUser, 9, "User"⟩,
          ⟨.itemValue, 14, "u"⟩, ⟨.itemHost, 16, "Host"⟩, ⟨.itemHostValue, 20, ""⟩,
          ⟨.itemEOF, 21, ""⟩]
        = ([{ newHost with Host := ["a", "b"], User := "u" },
            { newHost with Host := [""] }], none)
      ∧ ({ newHost with Host := [""] } : SSHHost).Host ≠ [] :=
  ⟨rfl, rfl, records_have_patterns
    [⟨.itemHost, 0, "Host"⟩, ⟨.itemHostValue, 5, "a b"⟩, ⟨.itemUser, 9, "User"⟩,
      ⟨.itemValue, 14, "u"⟩, ⟨.itemHost, 16, "Host"⟩, ⟨.itemHostValue, 20, ""⟩,
      ⟨.itemEOF, 21, ""⟩] _ rfl rfl _ (by decide)⟩

/-- C15: `parse` is a total function of the token stream, each iteration of its
loop working on the tokens behind the one it retrieved; on a stream with an
end-of-input token it ends at the first end-of-input or error token at the
latest: the tokens behind that token all stay unread, what `parse` returns
does not depend on them, and at least one token is retrieved. -/
theorem parse_stops_at_first_stop (toks : List item)
    (heof : ∃ t ∈ toks, t.typ = .itemEOF) :
    ∃ pre t post extra, toks = pre ++ t :: post
      ∧ (t.typ = .itemEOF ∨ t.typ = .itemError)
      ∧ (∀ x ∈ pre, x.typ ≠ .itemEOF ∧ x.typ ≠ .itemError)
      ∧ extra <:+ pre ++ [t]
      ∧ (∀ post2, unread (pre ++ t :: post2) = extra ++ post2
          ∧ parse (pre ++ t :: post2) = parse toks)
      ∧ (unread toks).length < toks.length := by
  obtain ⟨pre, t, post, hl, ht, hpre⟩ := first_stop toks heof
  obtain ⟨cfgs, e, extra, hrun⟩ := parseLoop_stops t ht pre.length pre (le_refl _) hpre none []
  refine ⟨pre, t, post, extra, hl, (isStop_typ t ht).2.2, ?_, ?_, ?_, ?_⟩
  · intro x hx
    have := hpre x hx
    simp [isStop] at this
    exact this
  · have h1 := (parseLoop_lexer_suffix _ (pre ++ [t]) (le_refl _) none []).1
    have h2 := hrun []
    simp only [List.append_nil] at h2
    have h3 : pre ++ [t] = pre ++ t :: [] := rfl
    rw [h3, h2] at h1
    exact h1
  · intro post2
    subst hl
    simp only [unread, parse, hrun post2, hrun post, and_self]
  · have h1 := (parseLoop_lexer_suffix _ toks (le_refl _) none []).2
    apply h1
    rw [hl]; simp

/-- Witness for C15: a stream whose first stop token is an error token taken as
the value of a `User` keyword; the two tokens behind it stay unread. -/
theorem parse_stops_at_first_stop_witness :
    ∃ pre t post extra,
      ([⟨.itemHost, 0, "Host"⟩, ⟨.itemHostValue, 5, "a"⟩, ⟨.itemUser, 7, "User"⟩,
        ⟨.itemError, 11, "bad"⟩, ⟨.itemHost, 15, "Host"⟩, ⟨.itemEOF, 19, ""⟩] : List item)
        = pre ++ t :: post
      ∧ (t.typ = .itemEOF ∨ t.typ = .itemError)
      ∧ (∀ x ∈ pre, x.typ ≠ .itemEOF ∧ x.typ ≠ .itemError)
      ∧ extra <:+ pre ++ [t]
      ∧ (∀ post2, unread (pre ++ t :: post2) = extra ++ post2
          ∧ parse (pre ++ t :: post2)
            = parse [⟨.itemHost, 0, "Host"⟩, ⟨.itemHostValue, 5, "a"⟩, ⟨.itemUser, 7, "User"⟩,
                ⟨.itemError, 11, "bad"⟩, ⟨.itemHost, 15, "Host"⟩, ⟨.itemEOF, 19, ""⟩])
      ∧ (unread [⟨.itemHost, 0, "Host"⟩, ⟨.itemHostValue, 5, "a"⟩, ⟨.itemUser, 7, "User"⟩,
          ⟨.itemError, 11, "bad"⟩, ⟨.itemHost, 15, "Host"⟩, ⟨.itemEOF, 19, ""⟩]).length
        < ([⟨.itemHost, 0, "Host"⟩, ⟨.itemHostValue, 5, "a"⟩, ⟨.itemUser, 7, "User"⟩,
          ⟨.itemError, 11, "bad"⟩, ⟨.itemHost, 15, "Host"⟩,
          ⟨.itemEOF, 19, ""⟩] : List item).length :=
  parse_stops_at_first_stop _ ⟨⟨.itemEOF, 19, ""⟩, by decide, rfl⟩

/-- C16: for a non-empty list of paths whose files can all be read and whose
contents all parse without error, `ParseSSHConfig` returns, without error, the
record lists that `parse` returns for the contents of the files, concatenated
in the order of the path list. -/
theorem ParseSSHConfig_concat (ReadFile : String → Except error String)
    (lex : String → List item) (defaultConfigFile path : List String)
    (hne : path ≠ []) (hok : ∀ v ∈ path, fileError ReadFile lex v = none) :
    ParseSSHConfig ReadFile lex defaultConfigFile path
      = (path.flatMap (fileRecords ReadFile lex), none) := by
  have hlen : ¬ path.length ≤ 0 := by
    cases path with
    | nil => exact absurd rfl hne
    | cons v p => simp
  simp only [ParseSSHConfig, hlen, if_false]
  rw [parseFiles_ok ReadFile lex path [] hok]
  simp

/-- Witness for C16: two readable files, the first with one Host block, the
second with two. -/
theorem ParseSSHConfig_concat_witness :
    ParseSSHConfig
        (fun v => if v = "a" then .ok "Host a" else .ok "Host b c\nHost d")
        (fun content =>
          if content = "Host a" then
            [⟨.itemHost, 0, "Host"⟩, ⟨.itemHostValue, 5, "a"⟩, ⟨.itemEOF, 6, ""⟩]
          else
            [⟨.itemHost, 0, "Host"⟩, ⟨.itemHostValue, 5, "b c"⟩, ⟨.itemHost, 9, "Host"⟩,
              ⟨.itemHostValue, 14, "d"⟩, ⟨.itemEOF, 15, ""⟩])
        [] ["a", "b"]
      = (["a", "b"].flatMap (fileRecords
          (fun v => if v = "a" then .ok "Host a" else .ok "Host b c\nHost d")
          (fun content =>
            if content = "Host a" then
              [⟨.itemHost, 0, "Host"⟩, ⟨.itemHostValue, 5, "a"⟩, ⟨.itemEOF, 6, ""⟩]
            else
              [⟨.itemHost, 0, "Host"⟩, ⟨.itemHostValue, 5, "b c"⟩, ⟨.itemHost, 9, "Host"⟩,
                ⟨.itemHostValue, 14, "d"⟩, ⟨.itemEOF, 15, ""⟩])), none) :=
  ParseSSHConfig_concat _ _ _ _ (by decide) (by decide)

/-- C17: for a list of paths in which the file `f` is the first whose reading
or parsing fails, `ParseSSHConfig` returns the error of `f` and no records,
although the files in front of `f` were parsed; the files behind `f` are not
handled: the result is the same for any other paths behind `f` and for any
file reader that agrees on the paths up to `f`. -/
theorem ParseSSHConfig_first_error (ReadFile : String → Except error String)
    (lex : String → List item) (defaultConfigFile pre later : List String) (f : String)
    (e : error) (hpre : ∀ v ∈ pre, fileError ReadFile lex v = none)
    (hf : fileError ReadFile lex f = some e) :
    ParseSSHConfig ReadFile lex defaultConfigFile (pre ++ f :: later) = ([], some e)
      ∧ ∀ (ReadFile2 : String → Except error String) (later2 : List String),
          (∀ v ∈ pre ++ [f], ReadFile2 v = ReadFile v) →
          ParseSSHConfig ReadFile2 lex defaultConfigFile (pre ++ f :: later2)
            = ([], some e) := by
  have key : ∀ (R : String → Except error String) (l2 : List String),
      (∀ v ∈ pre ++ [f], R v = ReadFile v) →
      ParseSSHConfig R lex defaultConfigFile (pre ++ f :: l2) = ([], some e) := by
    intro R l2 hR
    have hlen : ¬ (pre ++ f :: l2).length ≤ 0 := by simp
    simp only [ParseSSHConfig, hlen, if_false]
    apply parseFiles_fail R lex f l2 e
    · rw [fileError_congr ReadFile R lex f (hR f (by simp))]; exact hf
    · intro v hv
      rw [fileError_congr ReadFile R lex v (hR v (by simp [hv]))]; exact hpre v hv
  exact ⟨key ReadFile later (fun _ _ => rfl), key⟩

/-- Witness for C17: the first file parses, the second cannot be read, the
third is never reached. -/
theorem ParseSSHConfig_first_error_witness :
    ParseSSHConfig
        (fun v => if v = "a" then .ok "Host a"
          else .error (.PathError "open" v "no such file or directory"))
        (fun _ => [⟨.itemHost, 0, "Host"⟩, ⟨.itemHostValue, 5, "a"⟩, ⟨.itemEOF, 6, ""⟩])
        [] (["a"] ++ "b" :: ["c"])
      = ([], some (.PathError "open" "b" "no such file or directory")) :=
  (ParseSSHConfig_first_error _ _ _ _ _ _ _ (by decide) (by decide)).1

/-- C18: for two token sequences that each begin with a `Host` keyword token
and hold no end-of-input token, if each one followed by an end-of-input token
parses successfully, to `r1` and to `r2`, then the first followed by the
second followed by an end-of-input token parses successfully to `r1` followed
by `r2`. (That the sequences hold no error token follows from the success of
the two parses.) -/
theorem blocks_compose (h1 h2 e1 e2 e3 : item) (s1 s2 : List item) (r1 r2 : List SSHHost)
    (hh1 : h1.typ = .itemHost) (hh2 : h2.typ = .itemHost)
    (he1 : e1.typ = .itemEOF) (he2 : e2.typ = .itemEOF) (he3 : e3.typ = .itemEOF)
    (hs1 : ∀ x ∈ s1, x.typ ≠ .itemEOF) (hs2 : ∀ x ∈ s2, x.typ ≠ .itemEOF)
    (hok1 : parse ((h1 :: s1) ++ [e1]) = (r1, none))
    (hok2 : parse ((h2 :: s2) ++ [e2]) = (r2, none)) :
    parse ((h1 :: s1) ++ (h2 :: s2) ++ [e3]) = (r1 ++ r2, none) := by
  rw [List.cons_append, parse_host_cons h1 _ hh1] at hok1
  rw [List.cons_append, parse_host_cons h2 _ hh2] at hok2
  obtain ⟨a1, d1, hr1, hrun1⟩ := parseLoop_through s1.length s1 (le_refl _) hs1 e1 []
    newHost [] r1 _ (returned_eq_ok _ r1 hok1) he1
  obtain ⟨a2, d2, hr2, hrun2⟩ := parseLoop_through s2.length s2 (le_refl _) hs2 e2 []
    newHost [] r2 _ (returned_eq_ok _ r2 hok2) he2
  rw [List.append_assoc, List.cons_append, parse_host_cons h1 _ hh1, hrun1,
    List.cons_append, parseLoop_host h2 _ a1 _ hh2, hrun2, parseLoop_eof e3 [] a2 _ he3]
  simp [parseResult.returned, hr1, hr2]

/-- Witness for C18: a block with a User directive, then two blocks of which
the second has a Port directive. -/
theorem blocks_compose_witness :
    parse (((⟨.itemHost, 0, "Host"⟩ : item)
        :: [⟨.itemHostValue, 5, "a"⟩, ⟨.itemUser, 7, "User"⟩, ⟨.itemValue, 12, "u"⟩])
        ++ ((⟨.itemHost, 14, "Host"⟩ : item)
        :: [⟨.itemHostValue, 19, "b"⟩, ⟨.itemHost, 21, "Host"⟩, ⟨.itemHostValue, 26, "c"⟩,
          ⟨.itemPort, 28, "Port"⟩, ⟨.itemValue, 33, "2200"⟩])
        ++ [⟨.itemEOF, 37, ""⟩])
      = ([{ newHost with Host := ["a"], User := "u" }]
          ++ [{ newHost with Host := ["b"] }, { newHost with Host := ["c"], Port := 2200 }],
        none) :=
  blocks_compose _ _ ⟨.itemEOF, 14, ""⟩ ⟨.itemEOF, 37, ""⟩ _ _ _ _ _ rfl rfl rfl rfl rfl
    (by decide) (by decide) rfl rfl

/-- C19: inside an open Host block, a generic value token retrieved at the top
of the loop is skipped: the loop goes on with the tokens behind it, with the
open record and the collected records unchanged, so that the result is the one
of the stream without that token. -/
theorem stray_value_skipped (pos : Int) (val : String) (rest : List item)
    (sshHost : SSHHost) (sshConfigs : List SSHHost) (q : Nat → Int) (k : Nat → String) :
    parseLoop (⟨.itemValue, pos, val⟩ :: rest) (some sshHost) sshConfigs
        = parseLoop rest (some sshHost) sshConfigs
      ∧ parse (⟨.itemHost, q 0, k 0⟩ :: ⟨.itemValue, pos, val⟩ :: rest)
        = parse (⟨.itemHost, q 0, k 0⟩ :: rest) :=
  ⟨rfl, rfl⟩

/-- C20: a HostPatterns value token with the empty payload does not make
`parse` fail: the Host (patterns) list of the open record becomes the list
whose only element is the empty string. -/
theorem empty_patterns_payload (pos : Int) (rest : List item) (sshHost : SSHHost)
    (sshConfigs : List SSHHost) (q : Nat → Int) (k : Nat → String) :
    Split "" = [""]
      ∧ parseLoop (⟨.itemHostValue, pos, ""⟩ :: rest) (some sshHost) sshConfigs
        = parseLoop rest (some { sshHost with Host := [""] }) sshConfigs
      ∧ parse [⟨.itemHost, q 0, k 0⟩, ⟨.itemHostValue, pos, ""⟩, ⟨.itemEOF, q 2, k 2⟩]
        = ([{ Host := [""], HostName := "", User := "", Port := 22, ProxyCommand := "",
              HostKeyAlgorithms := "", IdentityFile := "" }], none) :=
  ⟨rfl, rfl, rfl⟩

end sshconfig
